import Mathlib

/-!
# pahg-template: price cache, jittered delay, notifications

A shallow embedding of `internal/coingecko/service.go`,
`internal/math/poisson.go` and `internal/notifications/store.go`, followed by
theorems about them.

Conventions of the embedding

* A method on `*Service` becomes a function from the service value and a
  `World` (what the clock and the upstream answer during the call) to a result
  record that carries the returned values, the service value afterwards and
  the list of upstream requests issued.
* `float64` payloads (prices, percentages) are only stored and copied by the
  service, never computed on; they are rationals here and a Go literal stands
  for its decimal value.
* `time.Time` is an integer count of nanoseconds since the zero `Time`;
  `time.Duration` is an integer count of nanoseconds, and `Time.Sub` saturates
  at the bounds of `int64` as in the Go library.
* The locks of `Service` and `Store` guard single reads and writes and have no
  sequential effect; they are left out, and calls are taken one after another.
* Go `int` is 64 bits wide; the counter of `Store` wraps around like it.
-/

namespace Pahg

/-! ## Data model -/

/-- Stand-in for `float64` values that are stored and copied, never computed on. -/
abbrev Float64 := Rat

/-- Go `config.CoinConfig`. -/
structure CoinConfig where
  ID : String
  DisplayName : String
deriving DecidableEq, Repr

/-- Go `coingecko.Coin`. -/
structure Coin where
  ID : String
  DisplayName : String
  Price : Float64
  Change24h : Float64
deriving DecidableEq, Repr

/-- Go `time.Time`, as nanoseconds since the zero `Time`. -/
abbrev Time := Int

/-- Go `time.Duration`, a count of nanoseconds held in an `int64`. -/
abbrev Duration := Int

/-- Smallest `time.Duration` (`math.MinInt64`). -/
def minDuration : Duration := -(2 ^ 63)

/-- Largest `time.Duration` (`math.MaxInt64`). -/
def maxDuration : Duration := 2 ^ 63 - 1

/-- Go `time.Second`. -/
def Second : Duration := 1000000000

/-- Go `Time.Sub`: the difference `t - u`, saturated to the range of `Duration`. -/
def Sub (t u : Time) : Duration :=
  let d := t - u
  if d < minDuration then minDuration
  else if maxDuration < d then maxDuration
  else d

/-- Go `time.Since(t)`, which is `time.Now().Sub(t)`; the clock reading is `now`. -/
def Since (now t : Time) : Duration := Sub now t

/-- The value type of `CoinGeckoResponse`: `struct { USD; USD24hChange }`. -/
structure CoinData where
  USD : Float64
  USD24hChange : Float64
deriving DecidableEq, Repr

/-- Go `CoinGeckoResponse`, a map from coin id to quote; `none` is an absent key. -/
abbrev CoinGeckoResponse := String → Option CoinData

/-- Errors of the package. -/
inductive Error where
  | ErrCoinNotFound
deriving DecidableEq, Repr

/-- What `s.client.Get` hands back when the transport succeeds: the status
code, and the outcome of `json.NewDecoder(resp.Body).Decode(&data)`, `none`
when the body does not decode. -/
structure Response where
  StatusCode : Nat
  Body : Option CoinGeckoResponse

/-- Go `http.StatusOK`. -/
def StatusOK : Nat := 200

/-- The surroundings of one call: the clock reading used by `time.Since` on
entry; what `s.client.Get(url)` returns (`none` is any error: a URL the client
refuses, a transport error, a timeout); whether the client refuses a URL before
sending for a reason other than a control character; the further requests the
client sends when it follows redirects from a URL; and the clock reading of
`time.Now()` when a new snapshot is stored. -/
structure World where
  sinceNow : Time
  Get : String → Option Response
  refuses : String → Bool
  redirects : String → List String
  storeNow : Time

/-- Go `coingecko.Service`. The HTTP client lives in `World.Get`. -/
structure Service where
  coins : List CoinConfig
  cache : List Coin
  cacheTime : Time
  cacheTTL : Duration
deriving DecidableEq, Repr

/-- Go `NewService`: empty snapshot, zero `cacheTime`, a TTL of thirty seconds. -/
def NewService (coins : List CoinConfig) : Service :=
  { coins := coins, cache := [], cacheTime := 0, cacheTTL := 30 * Second }

/-- What a call that returns `([]Coin, error)` yields: the two returned values,
the service afterwards, and the requests put on the wire during the call, each
by its URL, in order. -/
structure PricesResult where
  coins : List Coin
  err : Option Error
  svc : Service
  requests : List String

/-- What `GetCoin` yields: `(*Coin, error)`, the service afterwards, the requests. -/
structure CoinResult where
  coin : Option Coin
  err : Option Error
  svc : Service
  requests : List String

/-! ## `fallbackPrices` -/

/-- Go map of display names; `none` is an absent key. -/
abbrev NameMap := String → Option String

/-- The statement `nameMap[c.ID] = c.DisplayName`. -/
def NameMap.set (m : NameMap) (k v : String) : NameMap :=
  fun x => if x = k then some v else m x

/-- The loop `for _, c := range s.coins { nameMap[c.ID] = c.DisplayName }`. -/
def buildNameMap : List CoinConfig → NameMap → NameMap
  | [], m => m
  | c :: rest, m => buildNameMap rest (m.set c.ID c.DisplayName)

/-- The literal `mockData` of `fallbackPrices`. -/
def mockData : List Coin :=
  [ { ID := "bitcoin", DisplayName := "", Price := 43250.00, Change24h := 2.35 },
    { ID := "ethereum", DisplayName := "", Price := 2280.50, Change24h := 1.87 },
    { ID := "dogecoin", DisplayName := "", Price := 0.0825, Change24h := -0.42 },
    { ID := "solana", DisplayName := "", Price := 98.75, Change24h := 5.12 },
    { ID := "cardano", DisplayName := "", Price := 0.52, Change24h := -1.23 } ]

/-- The loop over `mockData` in `fallbackPrices`, appending to `result`. -/
def mockLoop (nameMap : NameMap) : List Coin → List Coin → List Coin
  | [], result => result
  | mock :: rest, result =>
    match nameMap mock.ID with
    | some name => mockLoop nameMap rest (result ++ [{ mock with DisplayName := name }])
    | none => mockLoop nameMap rest result

/-- Go `Service.fallbackPrices`. -/
def fallbackPrices (s : Service) : List Coin :=
  if s.cache.length > 0 then
    s.cache
  else
    let nameMap := buildNameMap s.coins (fun _ => none)
    mockLoop nameMap mockData []

/-! ## `GetPrices` -/

/-- The URL built by `GetPrices` from the configured ids. -/
def requestURL (s : Service) : String :=
  let ids := s.coins.map (fun c => c.ID)
  let idStr := String.intercalate "," ids
  "https://api.coingecko.com/api/v3/simple/price?ids=" ++ idStr ++
    "&vs_currencies=usd&include_24hr_change=true"

/-- The test of `net/url` for an ASCII control character (`stringContainsCTLByte`). -/
def isCTL (c : Char) : Bool := c.toNat < 32 || c.toNat = 127

/-- First check of `url.Parse`, which `http.Client.Get` runs before sending
anything: the URL is cut at the first `#`, and what stands before it is
refused when it holds an ASCII control character. -/
def ctlBeforeFragment (url : String) : Bool :=
  (url.data.takeWhile (fun c => c != '#')).any isCTL

/-- The requests one `s.client.Get(url)` puts on the wire: none when the client
refuses the URL, otherwise the request for `url` followed by the redirects the
client follows. -/
def sentBy (w : World) (url : String) : List String :=
  if ctlBeforeFragment url || w.refuses url then [] else url :: w.redirects url

/-- The loop `for _, cfg := range s.coins` of `GetPrices`, appending to `coins`. -/
def collectLoop (data : CoinGeckoResponse) : List CoinConfig → List Coin → List Coin
  | [], coins => coins
  | cfg :: rest, coins =>
    match data cfg.ID with
    | some coinData =>
      collectLoop data rest
        (coins ++ [{ ID := cfg.ID, DisplayName := cfg.DisplayName,
                     Price := coinData.USD, Change24h := coinData.USD24hChange }])
    | none => collectLoop data rest coins

/-- Go `Service.GetPrices`. -/
def GetPrices (s : Service) (w : World) : PricesResult :=
  if Since w.sinceNow s.cacheTime < s.cacheTTL ∧ s.cache.length > 0 then
    { coins := s.cache, err := none, svc := s, requests := [] }
  else
    let url := requestURL s
    match w.Get url with
    | none => { coins := fallbackPrices s, err := none, svc := s, requests := sentBy w url }
    | some resp =>
      if resp.StatusCode ≠ StatusOK then
        { coins := fallbackPrices s, err := none, svc := s, requests := sentBy w url }
      else
        match resp.Body with
        | none =>
          { coins := fallbackPrices s, err := none, svc := s, requests := sentBy w url }
        | some data =>
          let coins := collectLoop data s.coins []
          { coins := coins, err := none,
            svc := { s with cache := coins, cacheTime := w.storeNow },
            requests := sentBy w url }

/-! ## `GetCoin` -/

/-- The loop `for _, coin := range coins` of `GetCoin`. -/
def findLoop (id : String) : List Coin → Option Coin
  | [] => none
  | coin :: rest => if coin.ID = id then some coin else findLoop id rest

/-- Go `Service.GetCoin`. -/
def GetCoin (s : Service) (w : World) (id : String) : CoinResult :=
  let r := GetPrices s w
  match r.err with
  | some err => { coin := none, err := some err, svc := r.svc, requests := r.requests }
  | none =>
    match findLoop id r.coins with
    | some coin => { coin := some coin, err := none, svc := r.svc, requests := r.requests }
    | none =>
      { coin := none, err := some Error.ErrCoinNotFound, svc := r.svc, requests := r.requests }

/-! ## `SearchCoins` -/

/-- Go `unicode.ToLower` on one rune. Below `unicode.MaxASCII` it is the
arithmetic on the letters A to Z written in the library; above, it consults
the Unicode case tables, which are taken as the parameter `caseTable`. -/
def lowerRune (caseTable : Char → Char) (r : Char) : Char :=
  if r.val < 128 then
    (if 'A' ≤ r ∧ r ≤ 'Z' then Char.ofNat (r.toNat + ('a'.toNat - 'A'.toNat)) else r)
  else caseTable r

/-- Go `strings.ToLower`: every rune mapped through `unicode.ToLower`. A string
is its sequence of runes (valid UTF-8). -/
def ToLower (caseTable : Char → Char) (s : String) : String :=
  ⟨s.data.map (lowerRune caseTable)⟩

/-- Go `strings.Contains`: `substr` occurs within `s`. On valid UTF-8 a run of
bytes occurs exactly when the run of runes does. -/
def Contains (s substr : String) : Bool :=
  decide (substr.data <:+: s.data)

/-- The loop `for _, coin := range coins` of `SearchCoins`, appending to
`filtered`; `query` is already lower-cased. -/
def filterLoop (caseTable : Char → Char) (query : String) : List Coin → List Coin → List Coin
  | [], filtered => filtered
  | coin :: rest, filtered =>
    if Contains (ToLower caseTable coin.DisplayName) query ||
        Contains (ToLower caseTable coin.ID) query then
      filterLoop caseTable query rest (filtered ++ [coin])
    else filterLoop caseTable query rest filtered

/-- Go `Service.SearchCoins`. -/
def SearchCoins (caseTable : Char → Char) (s : Service) (w : World) (query : String) :
    PricesResult :=
  let r := GetPrices s w
  match r.err with
  | some err => { coins := [], err := some err, svc := r.svc, requests := r.requests }
  | none =>
    if query = "" then
      { coins := r.coins, err := none, svc := r.svc, requests := r.requests }
    else
      let query := ToLower caseTable query
      { coins := filterLoop caseTable query r.coins [], err := none, svc := r.svc,
        requests := r.requests }

/-! ## `GetPoissonDelay`

The function is written over any ordered field with a floor, so that it can be
run on rationals and reasoned about on reals. Arithmetic is exact: the rounding
of `float64` products is not modelled. `math.Log` is a parameter. -/

section Poisson

variable {α : Type} [LinearOrderedField α] [FloorRing α]

/-- Smallest Go `int` on a 64-bit platform. -/
def minInt : Int := -(2 ^ 63)

/-- Largest Go `int` on a 64-bit platform. -/
def maxInt : Int := 2 ^ 63 - 1

/-- Go conversion `int(x)` of a floating-point value: the fraction is
discarded (truncation towards zero). When the truncated value does not fit in
an `int` the Go specification leaves the result to the implementation; it is
then `outOfRange x`. -/
def intOfFloat (outOfRange : α → Int) (x : α) : Int :=
  let t : Int := if 0 ≤ x then ⌊x⌋ else ⌈x⌉
  if minInt ≤ t ∧ t ≤ maxInt then t else outOfRange x

/-- The sampling loop `u := rand.Float64(); for u == 0 { u = rand.Float64() }`,
run on the successive values `rand.Float64()` returns; `none` when every listed
value is zero, that is, when the loop has not left yet. -/
def sampleLoop : List α → Option α
  | [] => none
  | u :: rest => if u = 0 then sampleLoop rest else some u

/-- The body of `GetPoissonDelay` after the sampling loop, for the sample `u`.
The three products are exact here; Go rounds each to a `float64`, which can
move a product across an integer only when it lies within rounding distance of
one. -/
def delayOf (Log : α → α) (outOfRange : α → Int) (u targetMean : α) : Int :=
  let delay := intOfFloat outOfRange (-Log u * targetMean)
  let minDelay := intOfFloat outOfRange (0.1 * targetMean)
  let maxDelay := intOfFloat outOfRange (10 * targetMean)
  let delay := if delay < minDelay then minDelay else delay
  let delay := if delay > maxDelay then maxDelay else delay
  delay

/-- Go `GetPoissonDelay`, on the stream `rand` of values of `rand.Float64()`. -/
def GetPoissonDelay (Log : α → α) (outOfRange : α → Int) (rand : List α) (targetMean : α) :
    Option Int :=
  match sampleLoop rand with
  | none => none
  | some u => some (delayOf Log outOfRange u targetMean)

end Poisson

/-! ## Slices and their backing arrays

`GetPrices` again, this time with the slices of the Go program kept apart from
the arrays they point into, so that two slices sharing one array can be told
from two slices holding equal records. -/

/-- Go slice header of a `[]Coin`: the backing array (by address) and the
length. A nil slice has length zero. -/
structure Slice where
  array : Nat
  len : Nat
deriving DecidableEq, Repr

/-- Memory holding the backing arrays of `[]Coin` values; an address is an
index into the list. -/
abbrev Heap := List (List Coin)

/-- A new backing array holding `xs`, and the slice over it. -/
def Heap.alloc (h : Heap) (xs : List Coin) : Heap × Slice :=
  (h ++ [xs], { array := h.length, len := xs.length })

/-- The records seen through a slice. -/
def Heap.read (h : Heap) (sl : Slice) : List Coin :=
  (h.getD sl.array []).take sl.len

/-- The assignment `sl[i] = c`; an index out of range stores nothing. -/
def Heap.write (h : Heap) (sl : Slice) (i : Nat) (c : Coin) : Heap :=
  if i < sl.len then h.modify (fun arr => arr.set i c) sl.array else h

/-- Go `coingecko.Service` with `cache` as a slice header. -/
structure ServiceM where
  coins : List CoinConfig
  cache : Slice
  cacheTime : Time
  cacheTTL : Duration
deriving DecidableEq, Repr

/-- Go `NewService`; `cache` is the nil slice. -/
def NewServiceM (coins : List CoinConfig) : ServiceM :=
  { coins := coins, cache := { array := 0, len := 0 }, cacheTime := 0, cacheTTL := 30 * Second }

/-- The service value seen through the memory. -/
def ServiceM.view (s : ServiceM) (h : Heap) : Service :=
  { coins := s.coins, cache := h.read s.cache, cacheTime := s.cacheTime,
    cacheTTL := s.cacheTTL }

/-- What `GetPrices` yields at the level of slices. -/
structure PricesResultM where
  coins : Slice
  err : Option Error
  svc : ServiceM
  heap : Heap
  requests : List String

/-- Go `Service.fallbackPrices` at the level of slices: `make` and `copy` of the
snapshot when it is non-empty, otherwise a new slice built from `mockData`. -/
def fallbackPricesM (s : ServiceM) (h : Heap) : Heap × Slice :=
  if s.cache.len > 0 then
    h.alloc (h.read s.cache)
  else
    let nameMap := buildNameMap s.coins (fun _ => none)
    h.alloc (mockLoop nameMap mockData [])

/-- Go `Service.GetPrices` at the level of slices. On a fresh snapshot the
result is `make` and `copy`; after a successful fetch the slice `coins` is both
assigned to `s.cache` and returned. -/
def GetPricesM (s : ServiceM) (h : Heap) (w : World) : PricesResultM :=
  if Since w.sinceNow s.cacheTime < s.cacheTTL ∧ s.cache.len > 0 then
    let (h1, coins) := h.alloc (h.read s.cache)
    { coins := coins, err := none, svc := s, heap := h1, requests := [] }
  else
    let url := requestURL (s.view h)
    match w.Get url with
    | none =>
      let (h1, coins) := fallbackPricesM s h
      { coins := coins, err := none, svc := s, heap := h1, requests := sentBy w url }
    | some resp =>
      if resp.StatusCode ≠ StatusOK then
        let (h1, coins) := fallbackPricesM s h
        { coins := coins, err := none, svc := s, heap := h1, requests := sentBy w url }
      else
        match resp.Body with
        | none =>
          let (h1, coins) := fallbackPricesM s h
          { coins := coins, err := none, svc := s, heap := h1, requests := sentBy w url }
        | some data =>
          let (h1, coins) := h.alloc (collectLoop data s.coins [])
          { coins := coins, err := none,
            svc := { s with cache := coins, cacheTime := w.storeNow },
            heap := h1, requests := sentBy w url }

/-! ## Vocabulary of the statements -/

/-- The snapshot is served as it is: younger than the TTL and non-empty. -/
def Fresh (s : Service) (w : World) : Prop :=
  Since w.sinceNow s.cacheTime < s.cacheTTL ∧ s.cache ≠ []

instance (s : Service) (w : World) : Decidable (Fresh s w) := by
  unfold Fresh; exact inferInstance

/-- The upstream fetch succeeds with the decoded response `R`: the transport
answers, the status is 200 and the body decodes to `R`. -/
def FetchSucceeds (s : Service) (w : World) (R : CoinGeckoResponse) : Prop :=
  ∃ resp, w.Get (requestURL s) = some resp ∧ resp.StatusCode = StatusOK ∧ resp.Body = some R

/-- The upstream fetch fails: a transport error or timeout, a status other than
200, or a body that does not decode. -/
def FetchFails (s : Service) (w : World) : Prop :=
  w.Get (requestURL s) = none ∨
  (∃ resp, w.Get (requestURL s) = some resp ∧ resp.StatusCode ≠ StatusOK) ∨
  (∃ resp, w.Get (requestURL s) = some resp ∧ resp.Body = none)

/-- The record `GetPrices` makes of a tracked item and its quote. -/
def coinOf (cfg : CoinConfig) (d : CoinData) : Coin :=
  { ID := cfg.ID, DisplayName := cfg.DisplayName, Price := d.USD, Change24h := d.USD24hChange }

/-- A query matches a record: lower-cased, it occurs in the lower-cased id or
in the lower-cased display name. -/
def Matches (caseTable : Char → Char) (q : String) (c : Coin) : Prop :=
  (ToLower caseTable q).data <:+: (ToLower caseTable c.ID).data ∨
  (ToLower caseTable q).data <:+: (ToLower caseTable c.DisplayName).data

instance (caseTable : Char → Char) (q : String) (c : Coin) :
    Decidable (Matches caseTable q c) := by
  unfold Matches; exact inferInstance

/-! ## Sample inputs -/

/-- One tracked item. -/
def trackedBitcoin : List CoinConfig := [{ ID := "bitcoin", DisplayName := "Bitcoin" }]

/-- An upstream that cannot be reached. -/
def worldDown (now : Time) : World :=
  { sinceNow := now, Get := fun _ => none, refuses := fun _ => false,
    redirects := fun _ => [], storeNow := now }

/-- An upstream that answers 200 with the decoded map `R`. -/
def worldReply (now : Time) (R : CoinGeckoResponse) : World :=
  { sinceNow := now, Get := fun _ => some { StatusCode := StatusOK, Body := some R },
    refuses := fun _ => false, redirects := fun _ => [], storeNow := now }

/-- The response with no key. -/
def noQuotes : CoinGeckoResponse := fun _ => none

/-- The response quoting bitcoin alone. -/
def bitcoinQuote : CoinGeckoResponse :=
  fun k => if k = "bitcoin" then some { USD := 50000, USD24hChange := 1 } else none

/-- Conversion result of amd64 for a value outside `int`. -/
def amd64OutOfRange {α : Type} : α → Int := fun _ => minInt

/-! ## Sequences of calls on a `Service` -/

/-- One call of a query operation of `Service`. -/
inductive Call where
  | getPrices
  | getCoin (id : String)
  | searchCoins (query : String)
deriving DecidableEq, Repr

/-- The service after one call made in the surroundings `w`. -/
def Call.exec (caseTable : Char → Char) (s : Service) (w : World) : Call → Service
  | Call.getPrices => (GetPrices s w).svc
  | Call.getCoin id => (GetCoin s w id).svc
  | Call.searchCoins query => (SearchCoins caseTable s w query).svc

/-- The service after a sequence of calls, each with its own surroundings. -/
def runCalls (caseTable : Char → Char) : Service → List (Call × World) → Service
  | s, [] => s
  | s, (c, w) :: rest => runCalls caseTable (c.exec caseTable s w) rest

/-- The clock never goes back: starting from the reading `t`, every call reads a
time no earlier than the previous reading, first on entry and then when storing. -/
def ClockFrom (t : Time) : List (Call × World) → Prop
  | [] => True
  | (_, w) :: rest => t ≤ w.sinceNow ∧ w.sinceNow ≤ w.storeNow ∧ ClockFrom w.storeNow rest

/-! ## Notifications (`internal/notifications/store.go`) -/

/-- Go `notifications.Notification`. -/
structure Notification where
  ID : Int
  Title : String
  Message : String
  Timestamp : Time
deriving DecidableEq, Repr

/-- Go `notifications.Store`; the mutex has no sequential effect. -/
structure Store where
  notifications : List Notification
  nextID : Int
deriving DecidableEq, Repr

/-- Go `NewStore`. -/
def NewStore : Store := { notifications := [], nextID := 1 }

/-- Arithmetic of Go `int` on a 64-bit platform: a result outside the range
wraps around. -/
def wrapInt (x : Int) : Int := (x - minInt) % 2 ^ 64 + minInt

/-- Go `Store.Add`; `now` is the reading of `time.Now()`. The result is the
returned notification and the store afterwards. -/
def Store.Add (s : Store) (now : Time) (title message : String) : Notification × Store :=
  let n : Notification :=
    { ID := s.nextID, Title := title, Message := message, Timestamp := now }
  (n, { notifications := s.notifications ++ [n], nextID := wrapInt (s.nextID + 1) })

/-- The zero value of `Notification`, which `make` fills a new slice with. -/
def zeroNotification : Notification := { ID := 0, Title := "", Message := "", Timestamp := 0 }

/-- The loop `for i, n := range s.notifications { result[len-1-i] = n }` of
`GetAll`, from index `i` on. -/
def getAllLoop (len : Nat) : Nat → List Notification → List Notification → List Notification
  | _, [], result => result
  | i, n :: rest, result => getAllLoop len (i + 1) rest (result.set (len - 1 - i) n)

/-- Go `Store.GetAll`. -/
def Store.GetAll (s : Store) : List Notification :=
  let result := List.replicate s.notifications.length zeroNotification
  getAllLoop s.notifications.length 0 s.notifications result

/-- Go `Store.Count`. -/
def Store.Count (s : Store) : Int := s.notifications.length

/-- Go `Store.Clear`. -/
def Store.Clear (s : Store) : Store := { s with notifications := [] }

/-- One mutating call on a `Store`. -/
inductive StoreOp where
  | add (now : Time) (title message : String)
  | clear
deriving DecidableEq, Repr

/-- The store after one call. -/
def StoreOp.exec (s : Store) : StoreOp → Store
  | StoreOp.add now title message => (s.Add now title message).2
  | StoreOp.clear => s.Clear

/-- The store after a sequence of calls. -/
def runStore : Store → List StoreOp → Store
  | s, [] => s
  | s, op :: rest => runStore (op.exec s) rest

/-- The notifications returned by the `Add` calls of a sequence, in call order. -/
def addResults : Store → List StoreOp → List Notification
  | _, [] => []
  | s, StoreOp.add now title message :: rest =>
    (s.Add now title message).1 :: addResults (s.Add now title message).2 rest
  | s, StoreOp.clear :: rest => addResults s.Clear rest

/-- The number of `Add` calls in a sequence. -/
def countAdds : List StoreOp → Nat
  | [] => 0
  | StoreOp.add _ _ _ :: rest => countAdds rest + 1
  | StoreOp.clear :: rest => countAdds rest

/-- A run of `Add` calls, each given as (clock reading, title, message). -/
def addOps (adds : List (Time × String × String)) : List StoreOp :=
  adds.map (fun x => StoreOp.add x.1 x.2.1 x.2.2)

/-! # Theorems -/

/-! ## Loops as list operations -/

theorem collectLoop_eq (data : CoinGeckoResponse) (cfgs : List CoinConfig) (acc : List Coin) :
    collectLoop data cfgs acc
      = acc ++ cfgs.filterMap (fun cfg => (data cfg.ID).map (coinOf cfg)) := by
  induction cfgs generalizing acc with
  | nil => simp [collectLoop]
  | cons cfg rest ih =>
    cases hd : data cfg.ID with
    | none => simp [collectLoop, hd, ih, List.filterMap_cons]
    | some d => simp [collectLoop, hd, ih, List.filterMap_cons, coinOf]

theorem mockLoop_eq (nameMap : NameMap) (ms : List Coin) (acc : List Coin) :
    mockLoop nameMap ms acc
      = acc ++ ms.filterMap
          (fun m => (nameMap m.ID).map (fun name => { m with DisplayName := name })) := by
  induction ms generalizing acc with
  | nil => simp [mockLoop]
  | cons m rest ih =>
    cases hd : nameMap m.ID with
    | none => simp [mockLoop, hd, ih, List.filterMap_cons]
    | some d => simp [mockLoop, hd, ih, List.filterMap_cons]

theorem buildNameMap_none (cfgs : List CoinConfig) (m : NameMap) (k : String)
    (hk : ∀ cfg ∈ cfgs, cfg.ID ≠ k) : buildNameMap cfgs m k = m k := by
  induction cfgs generalizing m with
  | nil => rfl
  | cons c rest ih =>
    have h1 : k ≠ c.ID := fun h => hk c (List.mem_cons_self _ _) h.symm
    rw [buildNameMap, ih _ (fun cfg hc => hk cfg (List.mem_cons_of_mem _ hc))]
    simp [NameMap.set, h1]

theorem buildNameMap_some (cfgs : List CoinConfig) (m : NameMap) (k : String)
    (hk : ∃ cfg ∈ cfgs, cfg.ID = k) :
    ∃ cfg ∈ cfgs, cfg.ID = k ∧ buildNameMap cfgs m k = some cfg.DisplayName := by
  induction cfgs generalizing m with
  | nil => simp at hk
  | cons c rest ih =>
    by_cases hr : ∃ cfg ∈ rest, cfg.ID = k
    · obtain ⟨cfg, hc, hid, hv⟩ := ih (m.set c.ID c.DisplayName) hr
      exact ⟨cfg, List.mem_cons_of_mem _ hc, hid, by rw [buildNameMap, hv]⟩
    · have hr2 : ∀ cfg ∈ rest, cfg.ID ≠ k := fun cfg hc h => hr ⟨cfg, hc, h⟩
      obtain ⟨cfg, hc, hid⟩ := hk
      rcases List.mem_cons.mp hc with rfl | hc2
      · refine ⟨cfg, List.mem_cons_self _ _, hid, ?_⟩
        rw [buildNameMap, buildNameMap_none _ _ _ hr2]
        simp [NameMap.set, hid]
      · exact absurd hid (hr2 cfg hc2)

theorem findLoop_eq (id : String) (cs : List Coin) :
    findLoop id cs = cs.find? (fun c => decide (c.ID = id)) := by
  induction cs with
  | nil => rfl
  | cons c rest ih =>
    by_cases h : c.ID = id <;> simp [findLoop, List.find?_cons, h, ih]

theorem filterLoop_eq (caseTable : Char → Char) (q : String) (cs acc : List Coin) :
    filterLoop caseTable q cs acc
      = acc ++ cs.filter (fun c =>
          Contains (ToLower caseTable c.DisplayName) q || Contains (ToLower caseTable c.ID) q) := by
  induction cs generalizing acc with
  | nil => simp [filterLoop]
  | cons c rest ih =>
    by_cases h : (Contains (ToLower caseTable c.DisplayName) q ||
        Contains (ToLower caseTable c.ID) q) = true
    · simp only [filterLoop, h, if_true, ih, List.filter_cons, List.append_assoc]
      simp
    · simp only [filterLoop, h, if_false, ih, List.filter_cons]
      simp

/-! ## Elapsed time -/

/-- Within the range of `Duration`, `time.Since` is the plain difference. -/
theorem Since_eq_sub (now t : Time) (hlo : minDuration ≤ now - t) (hhi : now - t ≤ maxDuration) :
    Since now t = now - t := by
  unfold Since Sub
  simp only
  rw [if_neg (not_lt.mpr hlo), if_neg (not_lt.mpr hhi)]

/-- Against any TTL other than the smallest `Duration`, comparing the saturated
`time.Since` is comparing the plain difference. -/
theorem Since_lt_iff (now t : Time) (d : Duration)
    (hd : minDuration < d) (hd2 : d ≤ maxDuration) :
    Since now t < d ↔ now - t < d := by
  unfold Since Sub
  simp only
  split_ifs with h1 h2
  · exact ⟨fun _ => lt_trans h1 hd, fun _ => hd⟩
  · exact ⟨fun h => absurd h (not_lt.mpr hd2), fun h => absurd (lt_of_lt_of_le h hd2) (not_lt.mpr h2.le)⟩
  · exact Iff.rfl

/-! ## The three ways through `GetPrices` -/

theorem fresh_iff (s : Service) (w : World) :
    (Since w.sinceNow s.cacheTime < s.cacheTTL ∧ s.cache.length > 0) ↔ Fresh s w := by
  unfold Fresh
  constructor
  · rintro ⟨h1, h2⟩
    exact ⟨h1, fun h => by simp [h] at h2⟩
  · rintro ⟨h1, h2⟩
    exact ⟨h1, List.length_pos.mpr h2⟩

theorem GetPrices_of_fresh (s : Service) (w : World) (h : Fresh s w) :
    GetPrices s w = { coins := s.cache, err := none, svc := s, requests := [] } := by
  unfold GetPrices
  rw [if_pos ((fresh_iff s w).mpr h)]

theorem GetPrices_of_success (s : Service) (w : World) (R : CoinGeckoResponse)
    (h : ¬ Fresh s w) (hok : FetchSucceeds s w R) :
    GetPrices s w =
      { coins := collectLoop R s.coins [], err := none,
        svc := { s with cache := collectLoop R s.coins [], cacheTime := w.storeNow },
        requests := sentBy w (requestURL s) } := by
  obtain ⟨resp, hget, hst, hbody⟩ := hok
  unfold GetPrices
  rw [if_neg (fun hf => h ((fresh_iff s w).mp hf))]
  simp [hget, hst, hbody]

theorem GetPrices_of_failure (s : Service) (w : World)
    (h : ¬ Fresh s w) (hfail : FetchFails s w) :
    GetPrices s w =
      { coins := fallbackPrices s, err := none, svc := s,
        requests := sentBy w (requestURL s) } := by
  unfold GetPrices
  rw [if_neg (fun hf => h ((fresh_iff s w).mp hf))]
  rcases hfail with hget | ⟨resp, hget, hst⟩ | ⟨resp, hget, hbody⟩
  · simp [hget]
  · simp [hget, hst]
  · by_cases hst : resp.StatusCode = StatusOK <;> simp [hget, hst, hbody]

theorem fetch_cases (s : Service) (w : World) :
    FetchFails s w ∨ ∃ R, FetchSucceeds s w R := by
  unfold FetchFails FetchSucceeds
  cases hget : w.Get (requestURL s) with
  | none => exact Or.inl (Or.inl rfl)
  | some resp =>
    by_cases hst : resp.StatusCode = StatusOK
    · cases hbody : resp.Body with
      | none => exact Or.inl (Or.inr (Or.inr ⟨resp, rfl, hbody⟩))
      | some R => exact Or.inr ⟨R, resp, rfl, hst, hbody⟩
    · exact Or.inl (Or.inr (Or.inl ⟨resp, rfl, hst⟩))

theorem GetPrices_err (s : Service) (w : World) : (GetPrices s w).err = none := by
  by_cases h : Fresh s w
  · rw [GetPrices_of_fresh s w h]
  · rcases fetch_cases s w with hf | ⟨R, hok⟩
    · rw [GetPrices_of_failure s w h hf]
    · rw [GetPrices_of_success s w R h hok]

theorem fallbackPrices_of_nonempty (s : Service) (h : s.cache ≠ []) :
    fallbackPrices s = s.cache := by
  unfold fallbackPrices
  rw [if_pos (List.length_pos.mpr h)]

theorem fallbackPrices_of_empty (s : Service) (h : s.cache = []) :
    fallbackPrices s = mockData.filterMap (fun m =>
      (buildNameMap s.coins (fun _ => none) m.ID).map (fun name => { m with DisplayName := name })) := by
  unfold fallbackPrices
  rw [if_neg (by simp [h])]
  simp [mockLoop_eq]

/-- C1. When `GetPrices` misses the cache and the upstream fetch succeeds with
the decoded response `R`, the returned sequence is the tracked items, in
configured order, whose id is a key of `R`, each with id and display name from
the configuration and price and change from `R`; it is no longer than the
tracked list, the error is nil, and afterwards the snapshot is the returned
sequence and `cacheTime` is the clock reading taken when storing. -/
theorem GetPrices_fetch_success (s : Service) (w : World) (R : CoinGeckoResponse)
    (hmiss : ¬ Fresh s w) (hok : FetchSucceeds s w R) :
    (GetPrices s w).coins
        = s.coins.filterMap (fun cfg => (R cfg.ID).map (fun d =>
            { ID := cfg.ID, DisplayName := cfg.DisplayName,
              Price := d.USD, Change24h := d.USD24hChange }))
      ∧ (GetPrices s w).coins.map (fun c => (c.ID, c.DisplayName))
          = (s.coins.filter (fun cfg => (R cfg.ID).isSome)).map
              (fun cfg => (cfg.ID, cfg.DisplayName))
      ∧ (GetPrices s w).coins.length ≤ s.coins.length
      ∧ (GetPrices s w).err = none
      ∧ (GetPrices s w).svc.cache = (GetPrices s w).coins
      ∧ (GetPrices s w).svc.cacheTime = w.storeNow
      ∧ (GetPrices s w).svc.coins = s.coins
      ∧ (GetPrices s w).svc.cacheTTL = s.cacheTTL := by
  rw [GetPrices_of_success s w R hmiss hok]
  refine ⟨?_, ?_, ?_, rfl, rfl, rfl, rfl, rfl⟩
  · simp only [collectLoop_eq, List.nil_append]
    rfl
  swap
  · simp only [collectLoop_eq, List.nil_append]
    exact List.length_filterMap_le _ _
  simp only [collectLoop_eq, List.nil_append]
  generalize s.coins = cfgs
  induction cfgs with
  | nil => rfl
  | cons cfg rest ih =>
    cases hd : R cfg.ID with
    | none => simpa [List.filterMap_cons, List.filter_cons, hd] using ih
    | some d => simpa [List.filterMap_cons, List.filter_cons, hd, coinOf] using ih

theorem GetPrices_fetch_success_witness :
    (GetPrices (NewService trackedBitcoin) (worldReply 5 bitcoinQuote)).coins
        = trackedBitcoin.filterMap (fun cfg => (bitcoinQuote cfg.ID).map (fun d =>
            { ID := cfg.ID, DisplayName := cfg.DisplayName,
              Price := d.USD, Change24h := d.USD24hChange }))
      ∧ (GetPrices (NewService trackedBitcoin) (worldReply 5 bitcoinQuote)).svc.cacheTime = 5 :=
  have h := GetPrices_fetch_success (NewService trackedBitcoin) (worldReply 5 bitcoinQuote)
    bitcoinQuote (by simp [Fresh, NewService])
    ⟨{ StatusCode := StatusOK, Body := some bitcoinQuote }, rfl, rfl, rfl⟩
  ⟨h.1, h.2.2.2.2.2.1⟩

/-- C2. When the snapshot is non-empty and younger than the TTL, `GetPrices`
returns the snapshot, element by element, with a nil error, requests nothing
from upstream and leaves the service as it was. -/
theorem GetPrices_fresh (s : Service) (w : World)
    (hne : s.cache ≠ []) (hage : Since w.sinceNow s.cacheTime < s.cacheTTL) :
    (GetPrices s w).coins = s.cache
      ∧ (GetPrices s w).coins.length = s.cache.length
      ∧ (∀ i, (GetPrices s w).coins.get? i = s.cache.get? i)
      ∧ (GetPrices s w).err = none
      ∧ (GetPrices s w).requests = []
      ∧ (GetPrices s w).svc = s := by
  rw [GetPrices_of_fresh s w ⟨hage, hne⟩]
  exact ⟨rfl, rfl, fun _ => rfl, rfl, rfl, rfl⟩

theorem GetPrices_fresh_witness :
    (GetPrices { coins := trackedBitcoin, cache := [coinOf ⟨"bitcoin", "Bitcoin"⟩ ⟨50000, 1⟩],
                 cacheTime := 100, cacheTTL := 30 * Second } (worldDown 101)).requests = [] :=
  (GetPrices_fresh { coins := trackedBitcoin, cache := [coinOf ⟨"bitcoin", "Bitcoin"⟩ ⟨50000, 1⟩],
                     cacheTime := 100, cacheTTL := 30 * Second } (worldDown 101)
    (by simp) (by decide)).2.2.2.2.1

/-- C3, as stated, fails: a successful fetch whose response names no tracked id
stores an empty snapshot, and a failing fetch right after it returns the
reference-table record of bitcoin instead of the (empty) records of that
snapshot. -/
theorem stale_fallback_counterexample :
    FetchSucceeds (NewService trackedBitcoin) (worldReply 100 noQuotes) noQuotes
      ∧ (GetPrices (NewService trackedBitcoin) (worldReply 100 noQuotes)).svc.cacheTime = 100
      ∧ (GetPrices (NewService trackedBitcoin) (worldReply 100 noQuotes)).svc.cache = []
      ∧ ¬ Fresh (GetPrices (NewService trackedBitcoin) (worldReply 100 noQuotes)).svc
            (worldDown 101)
      ∧ FetchFails (GetPrices (NewService trackedBitcoin) (worldReply 100 noQuotes)).svc
            (worldDown 101)
      ∧ (GetPrices (GetPrices (NewService trackedBitcoin) (worldReply 100 noQuotes)).svc
            (worldDown 101)).coins
          = [{ ID := "bitcoin", DisplayName := "Bitcoin", Price := 43250.00, Change24h := 2.35 }]
      ∧ (GetPrices (GetPrices (NewService trackedBitcoin) (worldReply 100 noQuotes)).svc
            (worldDown 101)).coins
          ≠ (GetPrices (NewService trackedBitcoin) (worldReply 100 noQuotes)).svc.cache := by
  have h1 : GetPrices (NewService trackedBitcoin) (worldReply 100 noQuotes)
      = { coins := [], err := none,
          svc := { coins := trackedBitcoin, cache := [], cacheTime := 100,
                   cacheTTL := 30 * Second },
          requests := sentBy (worldReply 100 noQuotes)
            (requestURL (NewService trackedBitcoin)) } := by
    rw [GetPrices_of_success (NewService trackedBitcoin) (worldReply 100 noQuotes) noQuotes
      (by simp [Fresh, NewService]) ⟨_, rfl, rfl, rfl⟩]
    simp [collectLoop, trackedBitcoin, noQuotes, NewService, worldReply]
  have h2 : GetPrices { coins := trackedBitcoin, cache := [], cacheTime := 100,
                        cacheTTL := 30 * Second } (worldDown 101)
      = { coins := [{ ID := "bitcoin", DisplayName := "Bitcoin", Price := 43250.00,
                      Change24h := 2.35 }],
          err := none,
          svc := { coins := trackedBitcoin, cache := [], cacheTime := 100,
                   cacheTTL := 30 * Second },
          requests := sentBy (worldDown 101)
            (requestURL { coins := trackedBitcoin, cache := [], cacheTime := 100,
                          cacheTTL := 30 * Second }) } := by
    rw [GetPrices_of_failure _ (worldDown 101) (by simp [Fresh]) (Or.inl rfl)]
    simp [fallbackPrices, mockLoop, mockData, buildNameMap, NameMap.set, trackedBitcoin]
  refine ⟨⟨_, rfl, rfl, rfl⟩, ?_, ?_, ?_, ?_, ?_, ?_⟩
  · rw [h1]
  · rw [h1]
  · rw [h1]; simp [Fresh]
  · rw [h1]; exact Or.inl rfl
  · rw [h1, h2]
  · rw [h1, h2]; simp

/-- C3, amended. Whenever `GetPrices` needs a refresh and the upstream fetch
fails (transport error, status other than 200, or undecodable body) while the
snapshot is non-empty, whatever its age, `GetPrices` returns exactly the
records of the snapshot, in the same order, with a nil error, and leaves the
service as it was. -/
theorem GetPrices_stale_fallback (s : Service) (w : World)
    (hne : s.cache ≠ []) (hneeds : ¬ Fresh s w) (hfail : FetchFails s w) :
    (GetPrices s w).coins = s.cache
      ∧ (GetPrices s w).err = none
      ∧ (GetPrices s w).svc = s := by
  rw [GetPrices_of_failure s w hneeds hfail, fallbackPrices_of_nonempty s hne]
  exact ⟨rfl, rfl, rfl⟩

theorem GetPrices_stale_fallback_witness :
    (GetPrices { coins := trackedBitcoin, cache := [coinOf ⟨"bitcoin", "Bitcoin"⟩ ⟨50000, 1⟩],
                 cacheTime := 100, cacheTTL := 30 * Second }
        (worldDown (100 + 31 * Second))).coins
      = [coinOf ⟨"bitcoin", "Bitcoin"⟩ ⟨50000, 1⟩] :=
  (GetPrices_stale_fallback
    { coins := trackedBitcoin, cache := [coinOf ⟨"bitcoin", "Bitcoin"⟩ ⟨50000, 1⟩],
      cacheTime := 100, cacheTTL := 30 * Second }
    (worldDown (100 + 31 * Second)) (by simp)
    (by unfold Fresh; decide) (Or.inl rfl)).1

theorem buildNameMap_eq_none_iff (cfgs : List CoinConfig) (k : String) :
    buildNameMap cfgs (fun _ => none) k = none ↔ k ∉ cfgs.map (fun cfg => cfg.ID) := by
  constructor
  · intro h hk
    obtain ⟨cfg, hc, hid⟩ := List.mem_map.mp hk
    obtain ⟨cfg2, _, _, hv⟩ := buildNameMap_some cfgs (fun _ => none) k ⟨cfg, hc, hid⟩
    rw [hv] at h
    exact Option.noConfusion h
  · intro hk
    rw [buildNameMap_none cfgs _ k]
    intro cfg hc hid
    exact hk (List.mem_map.mpr ⟨cfg, hc, hid⟩)

theorem rename_filterMap_proj (nameMap : NameMap) (ids : List String)
    (hnm : ∀ k, nameMap k = none ↔ k ∉ ids) (ms : List Coin) :
    (ms.filterMap (fun m => (nameMap m.ID).map (fun name => { m with DisplayName := name }))).map
        (fun c => (c.ID, c.Price, c.Change24h))
      = (ms.map (fun c => (c.ID, c.Price, c.Change24h))).filter (fun e => decide (e.1 ∈ ids)) := by
  induction ms with
  | nil => rfl
  | cons m rest ih =>
    cases hd : nameMap m.ID with
    | none =>
      have : m.ID ∉ ids := (hnm _).mp hd
      simp [List.filterMap_cons, hd, List.filter_cons, this, ih]
    | some name =>
      have : m.ID ∈ ids := by
        by_contra hc
        rw [(hnm _).mpr hc] at hd
        exact Option.noConfusion hd
      simp [List.filterMap_cons, hd, List.filter_cons, this, ih]

theorem rename_filterMap_name (cfgs : List CoinConfig) (ms : List Coin) (c : Coin)
    (hc : c ∈ ms.filterMap (fun m => (buildNameMap cfgs (fun _ => none) m.ID).map
            (fun name => { m with DisplayName := name }))) :
    ∃ cfg ∈ cfgs, cfg.ID = c.ID ∧ cfg.DisplayName = c.DisplayName := by
  obtain ⟨m, _, hm⟩ := List.mem_filterMap.mp hc
  cases hd : buildNameMap cfgs (fun _ => none) m.ID with
  | none => rw [hd] at hm; exact Option.noConfusion hm
  | some name =>
    rw [hd] at hm
    have hce : c = { m with DisplayName := name } := (Option.some.inj hm).symm
    have hin : m.ID ∈ cfgs.map (fun cfg => cfg.ID) := by
      by_contra hn
      rw [(buildNameMap_eq_none_iff cfgs m.ID).mpr hn] at hd
      exact Option.noConfusion hd
    obtain ⟨cfg0, h0, hid0⟩ := List.mem_map.mp hin
    obtain ⟨cfg, hcfg, hid, hv⟩ := buildNameMap_some cfgs (fun _ => none) m.ID ⟨cfg0, h0, hid0⟩
    rw [hv] at hd
    refine ⟨cfg, hcfg, ?_, ?_⟩
    · rw [hce]; exact hid
    · rw [hce]; exact Option.some.inj hd

theorem fallbackPrices_proj (s : Service) (hempty : s.cache = []) :
    (fallbackPrices s).map (fun c => (c.ID, c.Price, c.Change24h))
      = [ ("bitcoin", (43250.00 : Float64), (2.35 : Float64)),
          ("ethereum", 2280.50, 1.87),
          ("dogecoin", 0.0825, -0.42),
          ("solana", 98.75, 5.12),
          ("cardano", 0.52, -1.23) ].filter
          (fun e => decide (e.1 ∈ s.coins.map (fun cfg => cfg.ID))) := by
  rw [fallbackPrices_of_empty s hempty]
  exact rename_filterMap_proj (buildNameMap s.coins (fun _ => none))
    (s.coins.map (fun cfg => cfg.ID)) (buildNameMap_eq_none_iff s.coins) mockData

/-- C4. With an empty snapshot and a failing upstream fetch, `GetPrices`
returns, with a nil error, exactly the entries of the built-in reference table
whose id is tracked, in the order of the table and with the price and change of
the table; every returned record carries the display name of a tracked item
with its id; the service is left as it was. -/
theorem GetPrices_cold_fallback (s : Service) (w : World)
    (hempty : s.cache = []) (hfail : FetchFails s w) :
    (GetPrices s w).err = none
      ∧ (GetPrices s w).coins.map (fun c => (c.ID, c.Price, c.Change24h))
          = [ ("bitcoin", (43250.00 : Float64), (2.35 : Float64)),
              ("ethereum", 2280.50, 1.87),
              ("dogecoin", 0.0825, -0.42),
              ("solana", 98.75, 5.12),
              ("cardano", 0.52, -1.23) ].filter
              (fun e => decide (e.1 ∈ s.coins.map (fun cfg => cfg.ID)))
      ∧ (∀ c ∈ (GetPrices s w).coins,
          ∃ cfg ∈ s.coins, cfg.ID = c.ID ∧ cfg.DisplayName = c.DisplayName)
      ∧ (∀ c ∈ (GetPrices s w).coins,
          c.ID ∈ s.coins.map (fun cfg => cfg.ID)
            ∧ c.ID ∈ ["bitcoin", "ethereum", "dogecoin", "solana", "cardano"])
      ∧ (GetPrices s w).svc = s := by
  have hmiss : ¬ Fresh s w := fun h => h.2 hempty
  have hproj := fallbackPrices_proj s hempty
  rw [GetPrices_of_failure s w hmiss hfail]
  refine ⟨rfl, hproj, ?_, ?_, rfl⟩
  · intro c hc
    have hc2 : c ∈ fallbackPrices s := hc
    rw [fallbackPrices_of_empty s hempty] at hc2
    exact rename_filterMap_name s.coins mockData c hc2
  · intro c hc
    have hc2 : c ∈ fallbackPrices s := hc
    have hmem : (c.ID, c.Price, c.Change24h) ∈
        (fallbackPrices s).map (fun c => (c.ID, c.Price, c.Change24h)) :=
      List.mem_map.mpr ⟨c, hc2, rfl⟩
    rw [hproj] at hmem
    obtain ⟨h1, h2⟩ := List.mem_filter.mp hmem
    refine ⟨by simpa using h2, ?_⟩
    simp only [List.mem_cons, List.mem_singleton, List.not_mem_nil, or_false,
      Prod.mk.injEq] at h1
    rcases h1 with h | h | h | h | h <;> simp [h.1]

theorem GetPrices_cold_fallback_witness :
    (GetPrices (NewService trackedBitcoin) (worldDown 7)).err = none
      ∧ (GetPrices (NewService trackedBitcoin) (worldDown 7)).svc = NewService trackedBitcoin :=
  have h := GetPrices_cold_fallback (NewService trackedBitcoin) (worldDown 7) rfl (Or.inl rfl)
  ⟨h.1, h.2.2.2.2⟩

theorem findLoop_some (id : String) (cs : List Coin) (c : Coin) (h : findLoop id cs = some c) :
    ∃ pre post, cs = pre ++ c :: post ∧ (∀ x ∈ pre, x.ID ≠ id) ∧ c.ID = id := by
  induction cs with
  | nil => exact Option.noConfusion h
  | cons x rest ih =>
    by_cases hx : x.ID = id
    · rw [findLoop, if_pos hx] at h
      obtain rfl := Option.some.inj h
      exact ⟨[], rest, rfl, by simp, hx⟩
    · rw [findLoop, if_neg hx] at h
      obtain ⟨pre, post, hsplit, hpre, hc⟩ := ih h
      refine ⟨x :: pre, post, by rw [hsplit]; rfl, ?_, hc⟩
      intro y hy
      rcases List.mem_cons.mp hy with rfl | hy2
      · exact hx
      · exact hpre y hy2

theorem findLoop_none (id : String) (cs : List Coin) :
    findLoop id cs = none ↔ ∀ c ∈ cs, c.ID ≠ id := by
  induction cs with
  | nil => simp [findLoop]
  | cons x rest ih =>
    by_cases hx : x.ID = id
    · simp [findLoop, hx]
    · simp [findLoop, hx, ih]

/-- C5. `GetCoin id` runs `GetPrices` once, on the same state and upstream
outcome. When some record of that result has the id, it returns the first such
record with a nil error; when none has, it returns no record and
`ErrCoinNotFound`. So it succeeds exactly when the id occurs in the result of
`GetPrices`. -/
theorem GetCoin_spec (s : Service) (w : World) (id : String) :
    ((∃ c ∈ (GetPrices s w).coins, c.ID = id) →
        ∃ pre c post, (GetPrices s w).coins = pre ++ c :: post
          ∧ (∀ x ∈ pre, x.ID ≠ id) ∧ c.ID = id
          ∧ (GetCoin s w id).coin = some c ∧ (GetCoin s w id).err = none)
      ∧ ((∀ c ∈ (GetPrices s w).coins, c.ID ≠ id) →
          (GetCoin s w id).coin = none
            ∧ (GetCoin s w id).err = some Error.ErrCoinNotFound)
      ∧ ((GetCoin s w id).err = none ↔ ∃ c ∈ (GetPrices s w).coins, c.ID = id)
      ∧ ((GetCoin s w id).coin.isSome ↔ (GetCoin s w id).err = none)
      ∧ (GetCoin s w id).svc = (GetPrices s w).svc
      ∧ (GetCoin s w id).requests = (GetPrices s w).requests := by
  have herr := GetPrices_err s w
  cases hf : findLoop id (GetPrices s w).coins with
  | none =>
    have hnone := (findLoop_none id _).mp hf
    have hG : GetCoin s w id =
        { coin := none, err := some Error.ErrCoinNotFound,
          svc := (GetPrices s w).svc, requests := (GetPrices s w).requests } := by
      simp only [GetCoin, herr, hf]
    rw [hG]
    refine ⟨?_, fun _ => ⟨rfl, rfl⟩, ?_, by simp, rfl, rfl⟩
    · rintro ⟨c, hc, hid⟩
      exact absurd hid (hnone c hc)
    · constructor
      · intro h; exact Option.noConfusion h
      · rintro ⟨c, hc, hid⟩
        exact absurd hid (hnone c hc)
  | some c =>
    obtain ⟨pre, post, hsplit, hpre, hid⟩ := findLoop_some id _ c hf
    have hG : GetCoin s w id =
        { coin := some c, err := none,
          svc := (GetPrices s w).svc, requests := (GetPrices s w).requests } := by
      simp only [GetCoin, herr, hf]
    have hmem : c ∈ (GetPrices s w).coins := by rw [hsplit]; simp
    rw [hG]
    refine ⟨fun _ => ⟨pre, c, post, hsplit, hpre, hid, rfl, rfl⟩, ?_, ?_, by simp, rfl, rfl⟩
    · intro hall
      exact absurd hid (hall c hmem)
    · exact ⟨fun _ => ⟨c, hmem, hid⟩, fun _ => rfl⟩

theorem filter_matches_eq (caseTable : Char → Char) (q : String) (cs : List Coin) :
    cs.filter (fun c => Contains (ToLower caseTable c.DisplayName) (ToLower caseTable q) ||
        Contains (ToLower caseTable c.ID) (ToLower caseTable q))
      = cs.filter (fun c => decide (Matches caseTable q c)) := by
  apply List.filter_congr
  intro c _
  simp only [Contains, Matches, Bool.decide_or]
  exact Bool.or_comm _ _

theorem SearchCoins_of_empty (caseTable : Char → Char) (s : Service) (w : World) :
    SearchCoins caseTable s w "" =
      { coins := (GetPrices s w).coins, err := none,
        svc := (GetPrices s w).svc, requests := (GetPrices s w).requests } := by
  simp only [SearchCoins, GetPrices_err s w, if_true]

theorem SearchCoins_of_nonempty (caseTable : Char → Char) (s : Service) (w : World)
    (q : String) (hq : q ≠ "") :
    SearchCoins caseTable s w q
      = { coins := (GetPrices s w).coins.filter (fun c => decide (Matches caseTable q c)),
          err := none, svc := (GetPrices s w).svc, requests := (GetPrices s w).requests } := by
  simp only [SearchCoins, GetPrices_err s w, if_neg hq, filterLoop_eq, List.nil_append,
    filter_matches_eq]

theorem matches_doge (caseTable : Char → Char) (c : Coin)
    (hc : c.DisplayName = "Dogecoin" ∨ c.ID = "dogecoin") :
    Matches caseTable "doge" c ∧ Matches caseTable "DOGE" c := by
  have h1 : ToLower caseTable "doge" = "doge" := by rfl
  have h2 : ToLower caseTable "DOGE" = "doge" := by rfl
  have h3 : ToLower caseTable "Dogecoin" = "dogecoin" := by rfl
  have h4 : ToLower caseTable "dogecoin" = "dogecoin" := by rfl
  have h5 : "doge".data <:+: "dogecoin".data := by decide
  unfold Matches
  rcases hc with hc | hc
  · rw [hc, h1, h2, h3]; exact ⟨Or.inr h5, Or.inr h5⟩
  · rw [hc, h1, h2, h4]; exact ⟨Or.inl h5, Or.inl h5⟩

/-- C6. `SearchCoins q` runs `GetPrices` once, on the same state and upstream
outcome, and never returns an error. With the empty query it returns the whole
result of `GetPrices`; otherwise it returns the records of that result, in
their order, whose lower-cased id or lower-cased display name contains the
lower-cased query, which is the empty sequence when nothing matches. The
queries doge and DOGE both select a record named Dogecoin or with id
dogecoin. -/
theorem SearchCoins_spec (caseTable : Char → Char) (s : Service) (w : World) (q : String) :
    (SearchCoins caseTable s w q).err = none
      ∧ (q = "" → (SearchCoins caseTable s w q).coins = (GetPrices s w).coins)
      ∧ (q ≠ "" → (SearchCoins caseTable s w q).coins
            = (GetPrices s w).coins.filter (fun c => decide (Matches caseTable q c)))
      ∧ (q ≠ "" → ∀ c, c ∈ (SearchCoins caseTable s w q).coins
            ↔ c ∈ (GetPrices s w).coins ∧ Matches caseTable q c)
      ∧ (SearchCoins caseTable s w q).coins.Sublist (GetPrices s w).coins
      ∧ (q ≠ "" → (∀ c ∈ (GetPrices s w).coins, ¬ Matches caseTable q c) →
            (SearchCoins caseTable s w q).coins = [])
      ∧ (∀ c ∈ (GetPrices s w).coins, (c.DisplayName = "Dogecoin" ∨ c.ID = "dogecoin") →
            c ∈ (SearchCoins caseTable s w "doge").coins
              ∧ c ∈ (SearchCoins caseTable s w "DOGE").coins)
      ∧ (SearchCoins caseTable s w q).svc = (GetPrices s w).svc
      ∧ (SearchCoins caseTable s w q).requests = (GetPrices s w).requests := by
  have hdoge : ∀ c ∈ (GetPrices s w).coins, (c.DisplayName = "Dogecoin" ∨ c.ID = "dogecoin") →
      c ∈ (SearchCoins caseTable s w "doge").coins
        ∧ c ∈ (SearchCoins caseTable s w "DOGE").coins := by
    intro c hc hd
    rw [SearchCoins_of_nonempty caseTable s w "doge" (by decide),
      SearchCoins_of_nonempty caseTable s w "DOGE" (by decide)]
    obtain ⟨m1, m2⟩ := matches_doge caseTable c hd
    exact ⟨List.mem_filter.mpr ⟨hc, by simpa using m1⟩,
      List.mem_filter.mpr ⟨hc, by simpa using m2⟩⟩
  by_cases hq : q = ""
  · subst hq
    rw [SearchCoins_of_empty]
    exact ⟨rfl, fun _ => rfl, fun h => absurd rfl h, fun h => absurd rfl h,
      List.Sublist.refl _, fun h => absurd rfl h, hdoge, rfl, rfl⟩
  · rw [SearchCoins_of_nonempty caseTable s w q hq]
    refine ⟨rfl, fun h => absurd h hq, fun _ => rfl, ?_, List.filter_sublist _, ?_, hdoge,
      rfl, rfl⟩
    · intro _ c
      simp [List.mem_filter]
    · intro _ hall
      simp only [List.filter_eq_nil_iff]
      intro c hc
      simpa using hall c hc

theorem sampleLoop_zeros {α : Type} [LinearOrderedField α] (zeros : Nat) (u : α)
    (rest : List α) (hu : u ≠ 0) :
    sampleLoop (List.replicate zeros 0 ++ u :: rest) = some u := by
  induction zeros with
  | zero => simp [sampleLoop, hu]
  | succ k ih => simpa [List.replicate_succ, sampleLoop] using ih

section PoissonProofs

variable {α : Type} [LinearOrderedField α] [FloorRing α]

theorem intOfFloat_of_nonneg (outOfRange : α → Int) (x : α) (h0 : 0 ≤ x)
    (hfit : ⌊x⌋ ≤ maxInt) : intOfFloat outOfRange x = ⌊x⌋ := by
  have hmin : minInt ≤ ⌊x⌋ := by
    have : (0 : Int) ≤ ⌊x⌋ := Int.floor_nonneg.mpr h0
    unfold minInt
    omega
  simp only [intOfFloat, if_pos h0]
  rw [if_pos ⟨hmin, hfit⟩]

theorem floor_le_maxInt (x : α) (h : x < 2 ^ 63) : ⌊x⌋ ≤ maxInt := by
  have h1 : ⌊x⌋ < (2 : Int) ^ 63 := by
    rw [Int.floor_lt]
    exact_mod_cast h
  unfold maxInt
  omega

theorem delayOf_bounds (Log : α → α) (outOfRange : α → Int) (u mean : α)
    (hmean : 0 < mean) (hrange : 10 * mean < 2 ^ 63) :
    ⌊0.1 * mean⌋ ≤ delayOf Log outOfRange u mean
      ∧ delayOf Log outOfRange u mean ≤ ⌊10 * mean⌋ := by
  have hlo0 : (0 : α) ≤ 0.1 * mean := by positivity
  have hhi0 : (0 : α) ≤ 10 * mean := by positivity
  have hle : (0.1 : α) * mean ≤ 10 * mean := by
    apply mul_le_mul_of_nonneg_right _ hmean.le
    norm_num
  have hhifit : ⌊10 * mean⌋ ≤ maxInt := floor_le_maxInt _ hrange
  have hlohi : ⌊0.1 * mean⌋ ≤ ⌊10 * mean⌋ := Int.floor_mono hle
  have hmin : intOfFloat outOfRange (0.1 * mean) = ⌊0.1 * mean⌋ :=
    intOfFloat_of_nonneg _ _ hlo0 (le_trans hlohi hhifit)
  have hmax : intOfFloat outOfRange (10 * mean) = ⌊10 * mean⌋ :=
    intOfFloat_of_nonneg _ _ hhi0 hhifit
  simp only [delayOf, hmin, hmax]
  refine ⟨?_, ?_⟩
  · split_ifs <;> omega
  · split_ifs <;> omega

/-- For the mean 5 the lower bound `int(0.1 * 5)` is 0, so a sample whose
product with the mean stays below 1 yields 0, whatever the logarithm is and
however its product with the mean was rounded. -/
theorem delayOf_mean_5 (Log : α → α) (outOfRange : α → Int) (u : α)
    (h0 : 0 ≤ -Log u * 5) (h1 : -Log u * 5 < 1) :
    delayOf Log outOfRange u 5 = 0 := by
  have hx : ⌊-Log u * 5⌋ = 0 := by
    rw [Int.floor_eq_zero_iff]
    exact ⟨h0, h1⟩
  have hd : intOfFloat outOfRange (-Log u * 5) = 0 := by
    rw [intOfFloat_of_nonneg _ _ h0 (by rw [hx]; decide), hx]
  have hlo : ⌊(0.1 : α) * 5⌋ = 0 := by
    rw [Int.floor_eq_zero_iff]
    constructor <;> norm_num
  have hmin : intOfFloat outOfRange ((0.1 : α) * 5) = 0 := by
    rw [intOfFloat_of_nonneg _ _ (by norm_num) (by rw [hlo]; decide), hlo]
  have hhi : ⌊(10 : α) * 5⌋ = 50 := by
    rw [Int.floor_eq_iff]
    constructor <;> norm_num
  have hmax : intOfFloat outOfRange ((10 : α) * 5) = 50 := by
    rw [intOfFloat_of_nonneg _ _ (by norm_num) (by rw [hhi]; decide), hhi]
  simp only [delayOf, hd, hmin, hmax]
  simp

end PoissonProofs

/-- C7 at the mean 5 with the sample 0.99. `minDelay` is `int(0.1 * 5)`, which
truncates 0.5 to 0, and the delay `int(-ln(0.99) * 5)` is 0 as well, so
`GetPoissonDelay` returns 0: below 0.1 times the mean, the lower bound that
the comment above the clamp states (0.1x to 10x). -/
theorem GetPoissonDelay_mean_5 :
    GetPoissonDelay Real.log amd64OutOfRange [(0.99 : ℝ)] 5 = some 0
      ∧ (0 : ℝ) < 0.99 ∧ (0.99 : ℝ) < 1
      ∧ ¬ ((0.1 : ℝ) * 5 ≤ ((0 : Int) : ℝ)) := by
  have hlog1 : Real.log (0.99 : ℝ) ≤ 0 := Real.log_nonpos (by norm_num) (by norm_num)
  have hlog2 : -(1 / 99 : ℝ) ≤ Real.log (0.99 : ℝ) := by
    have h := Real.log_le_sub_one_of_pos (show (0 : ℝ) < (0.99 : ℝ)⁻¹ by norm_num)
    rw [Real.log_inv] at h
    norm_num at h ⊢
    linarith
  refine ⟨?_, by norm_num, by norm_num, by norm_num⟩
  have hs : sampleLoop [(0.99 : ℝ)] = some 0.99 := by
    have := sampleLoop_zeros 0 (0.99 : ℝ) [] (by norm_num)
    simpa using this
  simp only [GetPoissonDelay, hs]
  rw [delayOf_mean_5 Real.log amd64OutOfRange (0.99 : ℝ) (by nlinarith) (by nlinarith)]

/-- C8, as stated, fails: after a successful fetch whose response names no
tracked id the snapshot is empty, and a second call one nanosecond later, well
within the TTL, asks upstream again and returns other data. -/
theorem GetPrices_twice_counterexample :
    ¬ Fresh (NewService trackedBitcoin) (worldReply 100 noQuotes)
      ∧ FetchSucceeds (NewService trackedBitcoin) (worldReply 100 noQuotes) noQuotes
      ∧ (GetPrices (NewService trackedBitcoin) (worldReply 100 noQuotes)).coins = []
      ∧ Since (worldReply 101 bitcoinQuote).sinceNow (worldReply 100 noQuotes).storeNow
          < (NewService trackedBitcoin).cacheTTL
      ∧ (GetPrices (GetPrices (NewService trackedBitcoin) (worldReply 100 noQuotes)).svc
            (worldReply 101 bitcoinQuote)).requests
          = [requestURL (NewService trackedBitcoin)]
      ∧ (GetPrices (GetPrices (NewService trackedBitcoin) (worldReply 100 noQuotes)).svc
            (worldReply 101 bitcoinQuote)).coins
          ≠ (GetPrices (NewService trackedBitcoin) (worldReply 100 noQuotes)).coins := by
  have h1 : GetPrices (NewService trackedBitcoin) (worldReply 100 noQuotes)
      = { coins := [], err := none,
          svc := { coins := trackedBitcoin, cache := [], cacheTime := 100,
                   cacheTTL := 30 * Second },
          requests := sentBy (worldReply 100 noQuotes)
            (requestURL (NewService trackedBitcoin)) } := by
    rw [GetPrices_of_success (NewService trackedBitcoin) (worldReply 100 noQuotes) noQuotes
      (by simp [Fresh, NewService]) ⟨_, rfl, rfl, rfl⟩]
    simp [collectLoop, trackedBitcoin, noQuotes, NewService, worldReply]
  have h2 : GetPrices { coins := trackedBitcoin, cache := [], cacheTime := 100,
                        cacheTTL := 30 * Second } (worldReply 101 bitcoinQuote)
      = { coins := [coinOf ⟨"bitcoin", "Bitcoin"⟩ ⟨50000, 1⟩], err := none,
          svc := { coins := trackedBitcoin, cache := [coinOf ⟨"bitcoin", "Bitcoin"⟩ ⟨50000, 1⟩],
                   cacheTime := 101, cacheTTL := 30 * Second },
          requests := sentBy (worldReply 101 bitcoinQuote)
            (requestURL { coins := trackedBitcoin, cache := [], cacheTime := 100,
                          cacheTTL := 30 * Second }) } := by
    rw [GetPrices_of_success _ (worldReply 101 bitcoinQuote) bitcoinQuote
      (by simp [Fresh]) ⟨_, rfl, rfl, rfl⟩]
    simp [collectLoop, trackedBitcoin, bitcoinQuote, worldReply, coinOf, requestURL,
      NewService]
  refine ⟨by simp [Fresh, NewService], ⟨_, rfl, rfl, rfl⟩, ?_, by decide, ?_, ?_⟩
  · rw [h1]
  · rw [h1, h2]
    decide
  · rw [h1, h2]; simp

/-- C8, amended. For every tracked-item list and every TTL: after a `GetPrices`
call that fetched successfully and returned a non-empty sequence, a second
`GetPrices` call made less than the TTL after the snapshot was stored returns
the same sequence with a nil error, requests nothing from upstream and leaves
the service unchanged. -/
theorem GetPrices_twice_within_ttl (s : Service) (w1 w2 : World) (R : CoinGeckoResponse)
    (hmiss : ¬ Fresh s w1) (hok : FetchSucceeds s w1 R)
    (hne : (GetPrices s w1).coins ≠ [])
    (hsoon : Since w2.sinceNow w1.storeNow < s.cacheTTL) :
    (GetPrices (GetPrices s w1).svc w2).coins = (GetPrices s w1).coins
      ∧ (GetPrices (GetPrices s w1).svc w2).err = none
      ∧ (GetPrices (GetPrices s w1).svc w2).requests = []
      ∧ (GetPrices (GetPrices s w1).svc w2).svc = (GetPrices s w1).svc := by
  rw [GetPrices_of_success s w1 R hmiss hok] at hne ⊢
  have hfresh : Fresh { s with cache := collectLoop R s.coins [], cacheTime := w1.storeNow }
      w2 := ⟨hsoon, hne⟩
  rw [GetPrices_of_fresh _ w2 hfresh]
  exact ⟨rfl, rfl, rfl, rfl⟩

theorem GetPrices_twice_within_ttl_witness :
    (GetPrices (GetPrices (NewService trackedBitcoin) (worldReply 100 bitcoinQuote)).svc
        (worldDown 101)).requests = [] :=
  (GetPrices_twice_within_ttl (NewService trackedBitcoin) (worldReply 100 bitcoinQuote)
    (worldDown 101) bitcoinQuote (by simp [Fresh, NewService]) ⟨_, rfl, rfl, rfl⟩
    (by
      rw [GetPrices_of_success (NewService trackedBitcoin) (worldReply 100 bitcoinQuote)
        bitcoinQuote (by simp [Fresh, NewService]) ⟨_, rfl, rfl, rfl⟩]
      simp [collectLoop, trackedBitcoin, bitcoinQuote, NewService])
    (by decide)).2.2.1

/-- C10, as stated, fails: bitcoin is tracked and is in the reference table,
yet a successful fetch whose response names no tracked id makes `GetPrices`
return the empty sequence. -/
theorem GetPrices_empty_counterexample :
    (GetPrices (NewService trackedBitcoin) (worldReply 100 noQuotes)).coins = []
      ∧ "bitcoin" ∈ (NewService trackedBitcoin).coins.map (fun cfg => cfg.ID)
      ∧ "bitcoin" ∈ ["bitcoin", "ethereum", "dogecoin", "solana", "cardano"] := by
  refine ⟨?_, by decide, by decide⟩
  rw [GetPrices_of_success (NewService trackedBitcoin) (worldReply 100 noQuotes) noQuotes
    (by simp [Fresh, NewService]) ⟨_, rfl, rfl, rfl⟩]
  simp [collectLoop, trackedBitcoin, noQuotes, NewService]

/-- C10, amended. If `GetPrices` returns the empty sequence, then either the
upstream fetch succeeded with a response that has no tracked id as a key, or
no tracked id is one of bitcoin, ethereum, dogecoin, solana, cardano. -/
theorem GetPrices_empty_only_if (s : Service) (w : World)
    (hnil : (GetPrices s w).coins = []) :
    (∃ R, FetchSucceeds s w R ∧ ∀ cfg ∈ s.coins, R cfg.ID = none)
      ∨ (∀ cfg ∈ s.coins,
          cfg.ID ∉ ["bitcoin", "ethereum", "dogecoin", "solana", "cardano"]) := by
  by_cases hf : Fresh s w
  · rw [GetPrices_of_fresh s w hf] at hnil
    exact absurd hnil hf.2
  · rcases fetch_cases s w with hfail | ⟨R, hok⟩
    · right
      by_cases hc : s.cache = []
      · have hproj := fallbackPrices_proj s hc
        rw [GetPrices_of_failure s w hf hfail] at hnil
        have hnil2 : fallbackPrices s = [] := hnil
        rw [hnil2] at hproj
        intro cfg hcfg hmem
        have hin : cfg.ID ∈ s.coins.map (fun c => c.ID) := List.mem_map.mpr ⟨cfg, hcfg, rfl⟩
        have hall := List.filter_eq_nil_iff.mp hproj.symm
        simp only [List.mem_cons, List.mem_singleton, List.not_mem_nil, or_false] at hmem
        rcases hmem with h | h | h | h | h
        · exact hall ("bitcoin", 43250.00, 2.35) (by simp) (by simpa [h] using hin)
        · exact hall ("ethereum", 2280.50, 1.87) (by simp) (by simpa [h] using hin)
        · exact hall ("dogecoin", 0.0825, -0.42) (by simp) (by simpa [h] using hin)
        · exact hall ("solana", 98.75, 5.12) (by simp) (by simpa [h] using hin)
        · exact hall ("cardano", 0.52, -1.23) (by simp) (by simpa [h] using hin)
      · rw [GetPrices_of_failure s w hf hfail, fallbackPrices_of_nonempty s hc] at hnil
        exact absurd hnil hc
    · left
      refine ⟨R, hok, ?_⟩
      rw [GetPrices_of_success s w R hf hok] at hnil
      simp only [collectLoop_eq, List.nil_append] at hnil
      intro cfg hcfg
      have := List.filterMap_eq_nil_iff.mp hnil cfg hcfg
      simpa using this

theorem GetPrices_empty_only_if_witness :
    (∃ R, FetchSucceeds (NewService [{ ID := "monero", DisplayName := "Monero" }])
          (worldDown 3) R ∧
        ∀ cfg ∈ (NewService [{ ID := "monero", DisplayName := "Monero" }]).coins,
          R cfg.ID = none)
      ∨ (∀ cfg ∈ (NewService [{ ID := "monero", DisplayName := "Monero" }]).coins,
          cfg.ID ∉ ["bitcoin", "ethereum", "dogecoin", "solana", "cardano"]) :=
  GetPrices_empty_only_if (NewService [{ ID := "monero", DisplayName := "Monero" }])
    (worldDown 3) (by decide)

/-! ## Slices against values -/

theorem Heap.read_alloc (h : Heap) (xs : List Coin) :
    (h.alloc xs).1.read (h.alloc xs).2 = xs := by
  simp [Heap.alloc, Heap.read, List.getD_eq_getElem?_getD]

theorem Heap.read_alloc_other (h : Heap) (xs : List Coin) (sl : Slice)
    (hwf : sl.len ≤ (h.getD sl.array []).length) :
    (h.alloc xs).1.read sl = h.read sl := by
  by_cases hlt : sl.array < h.length
  · simp [Heap.alloc, Heap.read, List.getD_eq_getElem?_getD, List.getElem?_append_left hlt]
  · have h0 : h.getD sl.array [] = [] := by
      simp [List.getD_eq_getElem?_getD, List.getElem?_eq_none (not_lt.mp hlt)]
    rw [h0] at hwf
    have hlen : sl.len = 0 := Nat.le_zero.mp hwf
    simp [Heap.read, hlen]

theorem Heap.read_length (h : Heap) (sl : Slice)
    (hwf : sl.len ≤ (h.getD sl.array []).length) : (h.read sl).length = sl.len := by
  unfold Heap.read
  rw [List.length_take]
  exact Nat.min_eq_left hwf

theorem fallbackPricesM_view (s : ServiceM) (h : Heap)
    (hwf : s.cache.len ≤ (h.getD s.cache.array []).length) :
    (fallbackPricesM s h).1.read (fallbackPricesM s h).2 = fallbackPrices (s.view h)
      ∧ (fallbackPricesM s h).1.read s.cache = h.read s.cache := by
  have hlen := Heap.read_length h s.cache hwf
  unfold fallbackPricesM fallbackPrices
  by_cases hpos : s.cache.len > 0
  · rw [if_pos hpos, if_pos (by simpa [ServiceM.view, hlen] using hpos)]
    exact ⟨Heap.read_alloc _ _, Heap.read_alloc_other _ _ _ hwf⟩
  · rw [if_neg hpos, if_neg (by simpa [ServiceM.view, hlen] using hpos)]
    exact ⟨Heap.read_alloc _ _, Heap.read_alloc_other _ _ _ hwf⟩

/-- The slice-level `GetPrices`, seen through the memory, is the value-level
`GetPrices`: same records, same error, same service afterwards, same requests. -/
theorem GetPricesM_view (s : ServiceM) (h : Heap) (w : World)
    (hwf : s.cache.len ≤ (h.getD s.cache.array []).length) :
    (GetPricesM s h w).heap.read (GetPricesM s h w).coins = (GetPrices (s.view h) w).coins
      ∧ (GetPricesM s h w).err = (GetPrices (s.view h) w).err
      ∧ (GetPricesM s h w).svc.view (GetPricesM s h w).heap = (GetPrices (s.view h) w).svc
      ∧ (GetPricesM s h w).requests = (GetPrices (s.view h) w).requests := by
  have hlen := Heap.read_length h s.cache hwf
  have hfb := fallbackPricesM_view s h hwf
  have hcond : (Since w.sinceNow s.cacheTime < s.cacheTTL ∧ s.cache.len > 0)
      ↔ (Since w.sinceNow (s.view h).cacheTime < (s.view h).cacheTTL
          ∧ (s.view h).cache.length > 0) := by
    simp [ServiceM.view, hlen]
  unfold GetPricesM GetPrices
  by_cases hc : Since w.sinceNow s.cacheTime < s.cacheTTL ∧ s.cache.len > 0
  · rw [if_pos hc, if_pos (hcond.mp hc)]
    refine ⟨Heap.read_alloc _ _, rfl, ?_, rfl⟩
    simp only [ServiceM.view, Heap.read_alloc_other _ _ _ hwf]
  · rw [if_neg hc, if_neg (fun hx => hc (hcond.mpr hx))]
    have hview : ∀ h1 : Heap, h1.read s.cache = h.read s.cache → s.view h1 = s.view h := by
      intro h1 he
      simp only [ServiceM.view, he]
    cases hget : w.Get (requestURL (s.view h)) with
    | none =>
      simp only [hget]
      exact ⟨hfb.1, trivial, hview _ hfb.2, trivial⟩
    | some resp =>
      by_cases hst : resp.StatusCode = StatusOK
      · cases hbody : resp.Body with
        | none =>
          simp only [hget, hst, hbody, ne_eq, not_true_eq_false, if_false]
          exact ⟨hfb.1, trivial, hview _ hfb.2, trivial⟩
        | some data =>
          simp only [hget, hst, hbody, ne_eq, not_true_eq_false, if_false]
          refine ⟨Heap.read_alloc _ _, trivial, ?_, trivial⟩
          simp only [ServiceM.view, Heap.read_alloc]
      · simp only [hget, hst, ne_eq, not_false_eq_true, if_true]
        exact ⟨hfb.1, trivial, hview _ hfb.2, trivial⟩

/-- C9 evaluated on the path that fetches. The call that performs a successful
fetch returns the very slice it stores as the snapshot; when the caller then
overwrites element 0 of what it was given, a later `GetPrices` within the TTL,
served from the snapshot without any upstream request, returns the caller's
record instead of the fetched one. -/
theorem GetPrices_fetch_result_aliases_snapshot :
    (GetPricesM (NewServiceM trackedBitcoin) [] (worldReply 100 bitcoinQuote)).coins
        = (GetPricesM (NewServiceM trackedBitcoin) [] (worldReply 100 bitcoinQuote)).svc.cache
      ∧ (GetPricesM (NewServiceM trackedBitcoin) [] (worldReply 100 bitcoinQuote)).heap.read
          (GetPricesM (NewServiceM trackedBitcoin) [] (worldReply 100 bitcoinQuote)).coins
        = [{ ID := "bitcoin", DisplayName := "Bitcoin", Price := 50000, Change24h := 1 }]
      ∧ (GetPricesM
          (GetPricesM (NewServiceM trackedBitcoin) [] (worldReply 100 bitcoinQuote)).svc
          ((GetPricesM (NewServiceM trackedBitcoin) [] (worldReply 100 bitcoinQuote)).heap.write
            (GetPricesM (NewServiceM trackedBitcoin) [] (worldReply 100 bitcoinQuote)).coins 0
            { ID := "changed", DisplayName := "by the caller", Price := 0, Change24h := 0 })
          (worldDown 101)).requests = []
      ∧ (GetPricesM
          (GetPricesM (NewServiceM trackedBitcoin) [] (worldReply 100 bitcoinQuote)).svc
          ((GetPricesM (NewServiceM trackedBitcoin) [] (worldReply 100 bitcoinQuote)).heap.write
            (GetPricesM (NewServiceM trackedBitcoin) [] (worldReply 100 bitcoinQuote)).coins 0
            { ID := "changed", DisplayName := "by the caller", Price := 0, Change24h := 0 })
          (worldDown 101)).heap.read
          (GetPricesM
            (GetPricesM (NewServiceM trackedBitcoin) [] (worldReply 100 bitcoinQuote)).svc
            ((GetPricesM (NewServiceM trackedBitcoin) []
                (worldReply 100 bitcoinQuote)).heap.write
              (GetPricesM (NewServiceM trackedBitcoin) [] (worldReply 100 bitcoinQuote)).coins 0
              { ID := "changed", DisplayName := "by the caller", Price := 0, Change24h := 0 })
            (worldDown 101)).coins
        = [{ ID := "changed", DisplayName := "by the caller", Price := 0, Change24h := 0 }] := by
  decide

/-- On a fresh snapshot the returned slice has a backing array of its own:
writing through it cannot reach the snapshot. -/
theorem GetPricesM_copy_on_hit (s : ServiceM) (h : Heap) (w : World)
    (hwf : s.cache.len ≤ (h.getD s.cache.array []).length)
    (hage : Since w.sinceNow s.cacheTime < s.cacheTTL) (hpos : s.cache.len > 0) :
    (GetPricesM s h w).coins.array ≠ s.cache.array
      ∧ (GetPricesM s h w).svc.cache = s.cache := by
  have hlt : s.cache.array < h.length := by
    by_contra hge
    have h0 : h.getD s.cache.array [] = [] := by
      simp [List.getD_eq_getElem?_getD, List.getElem?_eq_none (not_lt.mp hge)]
    rw [h0] at hwf
    exact absurd hpos (by simpa using hwf)
  unfold GetPricesM
  rw [if_pos ⟨hage, hpos⟩]
  exact ⟨fun he => absurd (show h.length = s.cache.array from he) (Nat.ne_of_gt hlt), rfl⟩

/-! ## Errors, frame and requests -/

theorem GetCoin_cases (s : Service) (w : World) (id : String) :
    (∃ c, findLoop id (GetPrices s w).coins = some c ∧
        GetCoin s w id
          = { coin := some c, err := none,
              svc := (GetPrices s w).svc, requests := (GetPrices s w).requests })
      ∨ (findLoop id (GetPrices s w).coins = none ∧
          GetCoin s w id
            = { coin := none, err := some Error.ErrCoinNotFound,
                svc := (GetPrices s w).svc, requests := (GetPrices s w).requests }) := by
  have herr := GetPrices_err s w
  cases hf : findLoop id (GetPrices s w).coins with
  | none =>
    right
    refine ⟨rfl, ?_⟩
    simp only [GetCoin, herr, hf]
  | some c =>
    left
    refine ⟨c, rfl, ?_⟩
    simp only [GetCoin, herr, hf]

theorem GetCoin_svc (s : Service) (w : World) (id : String) :
    (GetCoin s w id).svc = (GetPrices s w).svc := by
  rcases GetCoin_cases s w id with ⟨c, _, h⟩ | ⟨_, h⟩ <;> rw [h]

theorem SearchCoins_svc (caseTable : Char → Char) (s : Service) (w : World) (q : String) :
    (SearchCoins caseTable s w q).svc = (GetPrices s w).svc := by
  by_cases hq : q = ""
  · subst hq; rw [SearchCoins_of_empty]
  · rw [SearchCoins_of_nonempty caseTable s w q hq]

theorem SearchCoins_err (caseTable : Char → Char) (s : Service) (w : World) (q : String) :
    (SearchCoins caseTable s w q).err = none := by
  by_cases hq : q = ""
  · subst hq; rw [SearchCoins_of_empty]
  · rw [SearchCoins_of_nonempty caseTable s w q hq]

theorem Call.exec_eq (caseTable : Char → Char) (s : Service) (w : World) (c : Call) :
    c.exec caseTable s w = (GetPrices s w).svc := by
  cases c with
  | getPrices => rfl
  | getCoin id => exact GetCoin_svc s w id
  | searchCoins q => exact SearchCoins_svc caseTable s w q

theorem GetPrices_svc_of_frame (s : Service) (w : World) (h : Fresh s w ∨ FetchFails s w) :
    (GetPrices s w).svc = s := by
  by_cases hf : Fresh s w
  · rw [GetPrices_of_fresh s w hf]
  · rcases h with h | h
    · exact absurd h hf
    · rw [GetPrices_of_failure s w hf h]

theorem GetPrices_svc_cases (s : Service) (w : World) :
    (GetPrices s w).svc = s
      ∨ ∃ R, (GetPrices s w).svc
          = { s with cache := collectLoop R s.coins [], cacheTime := w.storeNow } := by
  by_cases hf : Fresh s w
  · exact Or.inl (GetPrices_svc_of_frame s w (Or.inl hf))
  · rcases fetch_cases s w with hfail | ⟨R, hok⟩
    · exact Or.inl (GetPrices_svc_of_frame s w (Or.inr hfail))
    · exact Or.inr ⟨R, by rw [GetPrices_of_success s w R hf hok]⟩

theorem GetPrices_requests_of_miss (s : Service) (w : World) (h : ¬ Fresh s w) :
    (GetPrices s w).requests = sentBy w (requestURL s) := by
  rcases fetch_cases s w with hfail | ⟨R, hok⟩
  · rw [GetPrices_of_failure s w h hfail]
  · rw [GetPrices_of_success s w R h hok]

/-- C11. Whatever the state and whatever the upstream does, `GetPrices` and
`SearchCoins` return a nil error, and the error of `GetCoin` is either nil or
`ErrCoinNotFound`, the latter exactly when no record of the `GetPrices` result
has the requested id. -/
theorem query_errors (caseTable : Char → Char) (s : Service) (w : World)
    (id q : String) :
    (GetPrices s w).err = none
      ∧ (SearchCoins caseTable s w q).err = none
      ∧ ((GetCoin s w id).err = none ∨ (GetCoin s w id).err = some Error.ErrCoinNotFound)
      ∧ ((GetCoin s w id).err = some Error.ErrCoinNotFound
          ↔ ∀ c ∈ (GetPrices s w).coins, c.ID ≠ id) := by
  refine ⟨GetPrices_err s w, SearchCoins_err caseTable s w q, ?_, ?_⟩
  · rcases GetCoin_cases s w id with ⟨c, _, h⟩ | ⟨_, h⟩ <;> rw [h]
    · exact Or.inl rfl
    · exact Or.inr rfl
  · rcases GetCoin_cases s w id with ⟨c, hc, h⟩ | ⟨hn, h⟩ <;> rw [h]
    · constructor
      · intro he; exact Option.noConfusion he
      · intro hall
        have := (findLoop_none id _).mpr hall
        rw [hc] at this
        exact Option.noConfusion this
    · exact ⟨fun _ => (findLoop_none id _).mp hn, fun _ => rfl⟩

/-! ## The clock along a sequence of calls -/

theorem exec_cacheTime (caseTable : Char → Char) (s : Service) (w : World) (c : Call)
    (t : Time) (hs : s.cacheTime ≤ t) (h1 : t ≤ w.sinceNow) (h2 : w.sinceNow ≤ w.storeNow) :
    s.cacheTime ≤ (c.exec caseTable s w).cacheTime
      ∧ (c.exec caseTable s w).cacheTime ≤ w.storeNow := by
  rw [Call.exec_eq]
  rcases GetPrices_svc_cases s w with h | ⟨R, h⟩ <;> rw [h]
  · exact ⟨le_refl _, le_trans hs (le_trans h1 h2)⟩
  · exact ⟨le_trans hs (le_trans h1 h2), le_refl _⟩

theorem runCalls_append (caseTable : Char → Char) (s : Service)
    (pre post : List (Call × World)) :
    runCalls caseTable s (pre ++ post) = runCalls caseTable (runCalls caseTable s pre) post := by
  induction pre generalizing s with
  | nil => rfl
  | cons cw rest ih =>
    obtain ⟨c, w⟩ := cw
    exact ih (c.exec caseTable s w)

theorem ClockFrom_initial (pre post : List (Call × World)) (t : Time)
    (hclock : ClockFrom t (pre ++ post)) : ClockFrom t pre := by
  induction pre generalizing t with
  | nil => trivial
  | cons cw rest ih =>
    obtain ⟨c, w⟩ := cw
    obtain ⟨h1, h2, h3⟩ := hclock
    exact ⟨h1, h2, ih w.storeNow h3⟩

theorem runCalls_cacheTime (caseTable : Char → Char) (calls : List (Call × World))
    (s : Service) (t : Time) (hs : s.cacheTime ≤ t) (hclock : ClockFrom t calls) :
    s.cacheTime ≤ (runCalls caseTable s calls).cacheTime := by
  induction calls generalizing s t with
  | nil => exact le_refl _
  | cons cw rest ih =>
    obtain ⟨c, w⟩ := cw
    obtain ⟨h1, h2, h3⟩ := hclock
    obtain ⟨ha, hb⟩ := exec_cacheTime caseTable s w c t hs h1 h2
    exact le_trans ha (ih (c.exec caseTable s w) w.storeNow hb h3)

theorem ClockFrom_append (caseTable : Char → Char) (pre post : List (Call × World))
    (s : Service) (t : Time) (hs : s.cacheTime ≤ t) (hclock : ClockFrom t (pre ++ post)) :
    ∃ t2, (runCalls caseTable s pre).cacheTime ≤ t2 ∧ ClockFrom t2 post := by
  induction pre generalizing s t with
  | nil => exact ⟨t, hs, hclock⟩
  | cons cw rest ih =>
    obtain ⟨c, w⟩ := cw
    obtain ⟨h1, h2, h3⟩ := hclock
    obtain ⟨_, hb⟩ := exec_cacheTime caseTable s w c t hs h1 h2
    exact ih (c.exec caseTable s w) w.storeNow hb h3

/-- C12. A `GetPrices`, `GetCoin` or `SearchCoins` call that is served from a
fresh snapshot, or whose upstream fetch fails (either fallback tier), leaves
the whole service, snapshot records and `cacheTime` included, exactly as it
was. Hence, when the clock never goes back, `cacheTime` never decreases along
a sequence of calls: after any initial part of the sequence it is at most what
it is after the whole sequence. -/
theorem snapshot_changes_only_on_success (caseTable : Char → Char) (s : Service) :
    (∀ (w : World) (id q : String), Fresh s w ∨ FetchFails s w →
        (GetPrices s w).svc = s
          ∧ (GetCoin s w id).svc = s
          ∧ (SearchCoins caseTable s w q).svc = s
          ∧ (GetPrices s w).svc.cache = s.cache
          ∧ (GetPrices s w).svc.cacheTime = s.cacheTime)
      ∧ (∀ (pre post : List (Call × World)), ClockFrom s.cacheTime (pre ++ post) →
          s.cacheTime ≤ (runCalls caseTable s pre).cacheTime
            ∧ (runCalls caseTable s pre).cacheTime
                ≤ (runCalls caseTable s (pre ++ post)).cacheTime) := by
  constructor
  · intro w id q h
    have hsvc := GetPrices_svc_of_frame s w h
    refine ⟨hsvc, ?_, ?_, by rw [hsvc], by rw [hsvc]⟩
    · rw [GetCoin_svc, hsvc]
    · rw [SearchCoins_svc, hsvc]
  · intro pre post hclock
    obtain ⟨t2, ht2, hpost⟩ :=
      ClockFrom_append caseTable pre post s s.cacheTime (le_refl _) hclock
    constructor
    · exact runCalls_cacheTime caseTable pre s s.cacheTime (le_refl _)
        (ClockFrom_initial pre post s.cacheTime hclock)
    · rw [runCalls_append]
      exact runCalls_cacheTime caseTable post _ t2 ht2 hpost

theorem snapshot_changes_only_on_success_witness :
    (GetPrices (NewService trackedBitcoin) (worldDown 5)).svc = NewService trackedBitcoin
      ∧ (NewService trackedBitcoin).cacheTime
          ≤ (runCalls id (NewService trackedBitcoin)
              [(Call.getPrices, worldReply 100 bitcoinQuote)]).cacheTime :=
  have h := snapshot_changes_only_on_success id (NewService trackedBitcoin)
  ⟨(h.1 (worldDown 5) "bitcoin" "" (Or.inr (Or.inl rfl))).1,
   (h.2 [(Call.getPrices, worldReply 100 bitcoinQuote)] [] (by
      simp [ClockFrom, NewService, worldReply])).1⟩

/-- C13, as stated, fails: with a line feed at the end of the only tracked id
the URL holds a control character, `s.client.Get` refuses it before sending,
and the `GetPrices` call, made on an empty snapshot, issues no upstream request
at all. -/
theorem GetPrices_one_request_counterexample :
    ((NewService [{ ID := "bitcoin\n", DisplayName := "Bitcoin" }]).cache = []
        ∨ (NewService [{ ID := "bitcoin\n", DisplayName := "Bitcoin" }]).cacheTTL
            ≤ Since (worldDown 5).sinceNow
                (NewService [{ ID := "bitcoin\n", DisplayName := "Bitcoin" }]).cacheTime)
      ∧ (GetPrices (NewService [{ ID := "bitcoin\n", DisplayName := "Bitcoin" }])
            (worldDown 5)).requests = []
      ∧ (GetPrices (NewService [{ ID := "bitcoin\n", DisplayName := "Bitcoin" }])
            (worldDown 5)).requests.length ≠ 1 := by
  have h : (GetPrices (NewService [{ ID := "bitcoin\n", DisplayName := "Bitcoin" }])
      (worldDown 5)).requests = [] := by
    rw [GetPrices_requests_of_miss _ _ (by simp [Fresh, NewService])]
    decide
  refine ⟨Or.inl rfl, h, ?_⟩
  rw [h]
  decide

/-- C13, amended. When the snapshot is empty or no younger than the TTL, one
`GetPrices` call hands the HTTP client exactly one URL, whatever the upstream
answers (no retry): the URL that names all tracked ids, joined by commas in
configured order, and asks for the USD price and the 24-hour change. The
requests issued are those of that single `Get`: none when the client refuses
the URL before sending, as it does when a control character stands in it
before any `#`; otherwise the one request for that URL, followed only by the
redirects the client follows. -/
theorem GetPrices_one_batched_request (s : Service) (w : World)
    (hmiss : s.cache = [] ∨ s.cacheTTL ≤ Since w.sinceNow s.cacheTime) :
    (GetPrices s w).requests
        = sentBy w ("https://api.coingecko.com/api/v3/simple/price?ids="
            ++ String.intercalate "," (s.coins.map (fun c => c.ID))
            ++ "&vs_currencies=usd&include_24hr_change=true")
      ∧ requestURL s
          = "https://api.coingecko.com/api/v3/simple/price?ids="
            ++ String.intercalate "," (s.coins.map (fun c => c.ID))
            ++ "&vs_currencies=usd&include_24hr_change=true"
      ∧ (ctlBeforeFragment (requestURL s) = false → w.refuses (requestURL s) = false →
          (GetPrices s w).requests = requestURL s :: w.redirects (requestURL s))
      ∧ (ctlBeforeFragment (requestURL s) = false → w.refuses (requestURL s) = false →
          w.redirects (requestURL s) = [] → (GetPrices s w).requests = [requestURL s])
      ∧ (ctlBeforeFragment (requestURL s) = true ∨ w.refuses (requestURL s) = true →
          (GetPrices s w).requests = []) := by
  have hnf : ¬ Fresh s w := by
    rintro ⟨h1, h2⟩
    rcases hmiss with h | h
    · exact h2 h
    · exact absurd h1 (not_lt.mpr h)
  rw [GetPrices_requests_of_miss s w hnf]
  refine ⟨rfl, rfl, ?_, ?_, ?_⟩
  · intro h1 h2
    simp [sentBy, h1, h2]
  · intro h1 h2 h3
    simp [sentBy, h1, h2, h3]
  · intro h
    rcases h with h | h <;> simp [sentBy, h]

theorem GetPrices_one_batched_request_witness :
    (GetPrices (NewService [⟨"bitcoin", "Bitcoin"⟩, ⟨"ethereum", "Ethereum"⟩])
        (worldDown 5)).requests
      = ["https://api.coingecko.com/api/v3/simple/price?ids=bitcoin,ethereum"
          ++ "&vs_currencies=usd&include_24hr_change=true"] :=
  have h := GetPrices_one_batched_request
    (NewService [⟨"bitcoin", "Bitcoin"⟩, ⟨"ethereum", "Ethereum"⟩]) (worldDown 5)
    (Or.inl rfl)
  (h.2.2.2.1 (by decide) rfl rfl).trans (by decide)

/-! ## The snapshot along a sequence of calls -/

theorem filterMap_coinOf_proj (R : CoinGeckoResponse) (cfgs : List CoinConfig) :
    (cfgs.filterMap (fun cfg => (R cfg.ID).map (coinOf cfg))).map
        (fun c => (c.ID, c.DisplayName))
      = (cfgs.filter (fun cfg => (R cfg.ID).isSome)).map
          (fun cfg => (cfg.ID, cfg.DisplayName)) := by
  induction cfgs with
  | nil => rfl
  | cons cfg rest ih =>
    cases hd : R cfg.ID with
    | none => simpa [List.filterMap_cons, List.filter_cons, hd] using ih
    | some d => simpa [List.filterMap_cons, List.filter_cons, hd, coinOf] using ih

theorem GetPrices_svc_origin (s : Service) (w : World) :
    (GetPrices s w).svc = s
      ∨ ∃ R, ¬ Fresh s w ∧ FetchSucceeds s w R ∧ (GetPrices s w).svc
          = { s with cache := collectLoop R s.coins [], cacheTime := w.storeNow } := by
  by_cases hf : Fresh s w
  · exact Or.inl (GetPrices_svc_of_frame s w (Or.inl hf))
  · rcases fetch_cases s w with hfail | ⟨R, hok⟩
    · exact Or.inl (GetPrices_svc_of_frame s w (Or.inr hfail))
    · exact Or.inr ⟨R, hf, hok, by rw [GetPrices_of_success s w R hf hok]⟩

theorem runCalls_coins (caseTable : Char → Char) (calls : List (Call × World)) (s : Service) :
    (runCalls caseTable s calls).coins = s.coins := by
  induction calls generalizing s with
  | nil => rfl
  | cons cw rest ih =>
    obtain ⟨c, w⟩ := cw
    show (runCalls caseTable (c.exec caseTable s w) rest).coins = s.coins
    rw [ih, Call.exec_eq]
    rcases GetPrices_svc_cases s w with h | ⟨R, h⟩ <;> rw [h]

theorem runCalls_snoc (caseTable : Char → Char) (s : Service) (init : List (Call × World))
    (c : Call) (w : World) :
    runCalls caseTable s (init ++ [(c, w)]) = (GetPrices (runCalls caseTable s init) w).svc := by
  rw [runCalls_append]
  show c.exec caseTable (runCalls caseTable s init) w = _
  rw [Call.exec_eq]

/-- The service after a sequence of calls is the initial one, or it is exactly
what one call of the sequence, which fetched successfully, left behind. -/
theorem runCalls_snapshot_origin (caseTable : Char → Char) (calls : List (Call × World))
    (s : Service) :
    runCalls caseTable s calls = s
      ∨ ∃ pre c w post R, calls = pre ++ (c, w) :: post
          ∧ ¬ Fresh (runCalls caseTable s pre) w
          ∧ FetchSucceeds (runCalls caseTable s pre) w R
          ∧ runCalls caseTable s calls
              = { runCalls caseTable s pre with
                  cache := collectLoop R (runCalls caseTable s pre).coins [],
                  cacheTime := w.storeNow } := by
  induction calls using List.reverseRecOn with
  | nil => exact Or.inl rfl
  | append_singleton init cw ih =>
    obtain ⟨c, w⟩ := cw
    rw [runCalls_snoc]
    rcases GetPrices_svc_origin (runCalls caseTable s init) w with h | ⟨R, hf, hok, h⟩
    · rw [h]
      rcases ih with h0 | ⟨pre, c0, w0, post, R, hsplit, hf, hok, hst⟩
      · exact Or.inl h0
      · refine Or.inr ⟨pre, c0, w0, post ++ [(c, w)], R, ?_, hf, hok, hst⟩
        rw [hsplit, List.append_assoc, List.cons_append]
    · exact Or.inr ⟨init, c, w, [], R, rfl, hf, hok, h⟩

/-- C14. In every state reached from `NewService T` by a sequence of
`GetPrices`, `GetCoin` and `SearchCoins` calls, whatever the upstream answers,
the tracked list is still `T`, and either the service is as `NewService` made
it, snapshot empty, or its snapshot and `cacheTime` are those stored by one
call of the sequence whose fetch succeeded with the decoded response `R`: the
snapshot is the tracked items, in configured order, whose id is a key of that
`R`, each with the id and display name of its tracked item and the price and
change `R` gives for that id. In both cases the (id, display name) pairs of
the snapshot form a subsequence of those of `T`. -/
theorem snapshot_invariant (caseTable : Char → Char) (T : List CoinConfig)
    (calls : List (Call × World)) :
    (runCalls caseTable (NewService T) calls).coins = T
      ∧ ((runCalls caseTable (NewService T) calls = NewService T
            ∧ (runCalls caseTable (NewService T) calls).cache = [])
          ∨ ∃ (pre : List (Call × World)) (c : Call) (w : World) (post : List (Call × World))
              (R : CoinGeckoResponse),
              calls = pre ++ (c, w) :: post
                ∧ ¬ Fresh (runCalls caseTable (NewService T) pre) w
                ∧ FetchSucceeds (runCalls caseTable (NewService T) pre) w R
                ∧ (runCalls caseTable (NewService T) calls).cache
                    = T.filterMap (fun cfg => (R cfg.ID).map (fun d =>
                        { ID := cfg.ID, DisplayName := cfg.DisplayName,
                          Price := d.USD, Change24h := d.USD24hChange }))
                ∧ (runCalls caseTable (NewService T) calls).cacheTime = w.storeNow)
      ∧ ((runCalls caseTable (NewService T) calls).cache.map
            (fun c => (c.ID, c.DisplayName))).Sublist
          (T.map (fun cfg => (cfg.ID, cfg.DisplayName))) := by
  have hcoins := runCalls_coins caseTable calls (NewService T)
  have hT : (NewService T).coins = T := rfl
  rcases runCalls_snapshot_origin caseTable calls (NewService T) with
    h0 | ⟨pre, c, w, post, R, hsplit, hf, hok, hst⟩
  · refine ⟨hcoins.trans hT, Or.inl ⟨h0, by rw [h0]; rfl⟩, ?_⟩
    rw [h0]
    exact List.nil_sublist _
  · have hpre : (runCalls caseTable (NewService T) pre).coins = T :=
      runCalls_coins caseTable pre (NewService T)
    have hcache : (runCalls caseTable (NewService T) calls).cache
        = T.filterMap (fun cfg => (R cfg.ID).map (coinOf cfg)) := by
      rw [hst]
      simp only [collectLoop_eq, List.nil_append, hpre]
    refine ⟨hcoins.trans hT, Or.inr ⟨pre, c, w, post, R, hsplit, hf, hok, hcache, ?_⟩, ?_⟩
    · rw [hst]
    · rw [hcache, filterMap_coinOf_proj]
      exact (List.filter_sublist _).map _

/-- C15. For the mean 1000 and every sample `u` in the open interval (0, 1),
reached after any number of zero samples, `GetPoissonDelay` returns an integer
between 100 and 10000 inclusive, whatever function stands for the logarithm and
whatever an out-of-range conversion yields. -/
theorem GetPoissonDelay_mean_1000 {α : Type} [LinearOrderedField α] [FloorRing α]
    (Log : α → α) (outOfRange : α → Int) (zeros : Nat) (u : α) (rest : List α)
    (hu0 : 0 < u) (hu1 : u < 1) :
    ∃ r : Int,
      GetPoissonDelay Log outOfRange (List.replicate zeros 0 ++ u :: rest) 1000 = some r
        ∧ 100 ≤ r ∧ r ≤ 10000 := by
  have _ := hu1
  obtain ⟨h1, h2⟩ := delayOf_bounds Log outOfRange u (1000 : α) (by norm_num)
    (by norm_num)
  have hlo : ⌊(0.1 : α) * 1000⌋ = 100 := by
    rw [Int.floor_eq_iff]
    constructor <;> norm_num
  have hhi : ⌊(10 : α) * 1000⌋ = 10000 := by
    rw [Int.floor_eq_iff]
    constructor <;> norm_num
  rw [hlo] at h1
  rw [hhi] at h2
  refine ⟨delayOf Log outOfRange u 1000, ?_, h1, h2⟩
  simp only [GetPoissonDelay, sampleLoop_zeros zeros u rest hu0.ne']

theorem GetPoissonDelay_mean_1000_witness :
    ∃ r : Int,
      GetPoissonDelay Real.log amd64OutOfRange
          (List.replicate 1 0 ++ (1 / 3 : ℝ) :: []) 1000 = some r
        ∧ 100 ≤ r ∧ r ≤ 10000 :=
  GetPoissonDelay_mean_1000 Real.log amd64OutOfRange 1 (1 / 3) []
    (by norm_num) (by norm_num)

/-- C19. Narrowing a search never adds results. For non-empty queries `q1` and
`q2` such that the lower-cased `q1` occurs in the lower-cased `q2`, the records
`SearchCoins` selects for `q2` form a subsequence of those it selects for `q1`,
on the same state and upstream outcome; and every `SearchCoins` result is a
subsequence of the `GetPrices` result. -/
theorem SearchCoins_narrowing (caseTable : Char → Char) (s : Service) (w : World)
    (q1 q2 : String) (hq1 : q1 ≠ "") (hq2 : q2 ≠ "")
    (hsub : (ToLower caseTable q1).data <:+: (ToLower caseTable q2).data) :
    (SearchCoins caseTable s w q2).coins.Sublist (SearchCoins caseTable s w q1).coins
      ∧ (∀ q : String,
          (SearchCoins caseTable s w q).coins.Sublist (GetPrices s w).coins) := by
  constructor
  · rw [SearchCoins_of_nonempty caseTable s w q1 hq1,
      SearchCoins_of_nonempty caseTable s w q2 hq2]
    apply List.monotone_filter_right
    intro c hc
    have hm : Matches caseTable q2 c := by simpa using hc
    have : Matches caseTable q1 c := by
      rcases hm with h | h
      · exact Or.inl (hsub.trans h)
      · exact Or.inr (hsub.trans h)
    simpa using this
  · intro q
    by_cases hq : q = ""
    · subst hq
      rw [SearchCoins_of_empty]
    · rw [SearchCoins_of_nonempty caseTable s w q hq]
      exact List.filter_sublist _

theorem SearchCoins_narrowing_witness :
    (SearchCoins id (NewService trackedBitcoin) (worldReply 5 bitcoinQuote) "bitc").coins.Sublist
      (SearchCoins id (NewService trackedBitcoin) (worldReply 5 bitcoinQuote) "BIT").coins :=
  (SearchCoins_narrowing id (NewService trackedBitcoin) (worldReply 5 bitcoinQuote)
    "BIT" "bitc" (by decide) (by decide) (by decide)).1

/-! ## Notifications -/

theorem set_replicate_append (z x : Notification) (n : Nat) (l : List Notification) :
    (List.replicate (n + 1) z ++ l).set n x = List.replicate n z ++ x :: l := by
  induction n with
  | zero => rfl
  | succ k ih =>
    rw [List.replicate_succ, List.cons_append, List.set_cons_succ, ih]
    rfl

theorem getAllLoop_eq (rest pre : List Notification) :
    getAllLoop (pre.length + rest.length) pre.length rest
        (List.replicate rest.length zeroNotification ++ pre.reverse)
      = (pre ++ rest).reverse := by
  induction rest generalizing pre with
  | nil => simp [getAllLoop]
  | cons x rest ih =>
    have hidx : pre.length + (x :: rest).length - 1 - pre.length = rest.length := by
      simp only [List.length_cons]
      omega
    have hlen : pre.length + (x :: rest).length = (pre ++ [x]).length + rest.length := by
      simp only [List.length_cons, List.length_append, List.length_nil]
      omega
    rw [getAllLoop, hidx, List.length_cons, set_replicate_append]
    have hstep := ih (pre ++ [x])
    rw [List.reverse_append, List.reverse_singleton, List.singleton_append,
      List.append_assoc, List.singleton_append] at hstep
    rw [← hstep]
    congr 1
    rw [List.length_append, List.length_singleton]

theorem Store.GetAll_eq_reverse (s : Store) : s.GetAll = s.notifications.reverse := by
  have h := getAllLoop_eq s.notifications []
  simpa [Store.GetAll] using h

theorem runStore_addOps (adds : List (Time × String × String)) (s : Store) :
    (runStore s (addOps adds)).notifications
        = s.notifications ++ addResults s (addOps adds)
      ∧ (addResults s (addOps adds)).map (fun n => (n.Timestamp, n.Title, n.Message))
          = adds := by
  induction adds generalizing s with
  | nil => simp [addOps, runStore, addResults]
  | cons x rest ih =>
    obtain ⟨now, title, message⟩ := x
    obtain ⟨h1, h2⟩ := ih (s.Add now title message).2
    constructor
    · show (runStore (s.Add now title message).2 (addOps rest)).notifications = _
      rw [h1]
      show (s.notifications ++ [_]) ++ _ = s.notifications ++ (_ :: _)
      rw [List.append_assoc, List.singleton_append]
      rfl
    · show ((s.Add now title message).1 :: addResults (s.Add now title message).2
          (addOps rest)).map _ = _
      rw [List.map_cons, h2]
      rfl

theorem GetAll_after_adds (start : Store) (hstart : start.notifications = [])
    (adds : List (Time × String × String)) :
    (runStore start (addOps adds)).GetAll = (addResults start (addOps adds)).reverse
      ∧ (addResults start (addOps adds)).map (fun n => (n.Timestamp, n.Title, n.Message))
          = adds
      ∧ ((runStore start (addOps adds)).GetAll.length : Int)
          = (runStore start (addOps adds)).Count
      ∧ (runStore start (addOps adds)).Count = adds.length := by
  obtain ⟨h1, h2⟩ := runStore_addOps adds start
  rw [hstart, List.nil_append] at h1
  have hlen : (addResults start (addOps adds)).length = adds.length := by
    have := congrArg List.length h2
    simpa using this
  refine ⟨?_, h2, ?_, ?_⟩
  · rw [Store.GetAll_eq_reverse, h1]
  · rw [Store.GetAll_eq_reverse, List.length_reverse]
    rfl
  · show ((runStore start (addOps adds)).notifications.length : Int) = _
    rw [h1, hlen]

/-- C16. For every run of `Add` calls made on a new store, or on a store just
cleared, `GetAll` returns the notifications those calls returned, newest first,
that is, in reverse order of insertion, with the time, title and message given
to each `Add`; its length is `Count()`, which is the number of calls; and after
`Clear` both `GetAll` is empty and `Count()` is 0. -/
theorem GetAll_newest_first (base : Store) (adds : List (Time × String × String)) :
    ((runStore NewStore (addOps adds)).GetAll = (addResults NewStore (addOps adds)).reverse
        ∧ (addResults NewStore (addOps adds)).map (fun n => (n.Timestamp, n.Title, n.Message))
            = adds
        ∧ ((runStore NewStore (addOps adds)).GetAll.length : Int)
            = (runStore NewStore (addOps adds)).Count
        ∧ (runStore NewStore (addOps adds)).Count = adds.length)
      ∧ ((runStore base.Clear (addOps adds)).GetAll
            = (addResults base.Clear (addOps adds)).reverse
          ∧ (addResults base.Clear (addOps adds)).map
              (fun n => (n.Timestamp, n.Title, n.Message)) = adds
          ∧ ((runStore base.Clear (addOps adds)).GetAll.length : Int)
              = (runStore base.Clear (addOps adds)).Count
          ∧ (runStore base.Clear (addOps adds)).Count = adds.length)
      ∧ (runStore NewStore (addOps adds)).GetAll.map
            (fun n => (n.Timestamp, n.Title, n.Message)) = adds.reverse
      ∧ base.Clear.GetAll = []
      ∧ base.Clear.Count = 0 := by
  have hnew := GetAll_after_adds NewStore rfl adds
  refine ⟨hnew, GetAll_after_adds base.Clear rfl adds, ?_, rfl, rfl⟩
  rw [hnew.1, List.map_reverse, hnew.2.1]

theorem wrapInt_of_fits (x : Int) (hlo : minInt ≤ x) (hhi : x ≤ maxInt) : wrapInt x = x := by
  unfold wrapInt
  unfold minInt at hlo ⊢
  unfold maxInt at hhi
  have h0 : (0 : Int) ≤ x - -(2 ^ 63) := by omega
  have h1 : x - -(2 ^ 63) < 2 ^ 64 := by omega
  rw [Int.emod_eq_of_lt h0 h1]
  omega

theorem runStore_ids (ops : List StoreOp) (s : Store) (a : Int)
    (hnext : s.nextID = a) (ha : 1 ≤ a) (hfit : a + countAdds ops ≤ maxInt)
    (hsorted : (s.notifications.map (fun n => n.ID)).Pairwise (fun x y => x < y))
    (hlt : ∀ n ∈ s.notifications, n.ID < a) :
    (runStore s ops).nextID = a + countAdds ops
      ∧ (addResults s ops).map (fun n => n.ID)
          = (List.range (countAdds ops)).map (fun (i : Nat) => a + (i : Int))
      ∧ ((runStore s ops).notifications.map (fun n => n.ID)).Pairwise (fun x y => x < y)
      ∧ (∀ n ∈ (runStore s ops).notifications, n.ID < a + countAdds ops) := by
  induction ops generalizing s a with
  | nil =>
    simp only [runStore, addResults, countAdds, List.range_zero, List.map_nil,
      Nat.cast_zero, add_zero]
    exact ⟨hnext, trivial, hsorted, hlt⟩
  | cons op rest ih =>
    cases op with
    | clear =>
      have h := ih s.Clear a hnext ha hfit (by simp [Store.Clear]) (by simp [Store.Clear])
      exact h
    | add now title message =>
      have hfit2 : a + 1 + (countAdds rest : Int) ≤ maxInt := by
        simp only [countAdds, Nat.cast_add, Nat.cast_one] at hfit
        omega
      have hwrap : wrapInt (s.nextID + 1) = a + 1 := by
        rw [hnext]
        apply wrapInt_of_fits
        · unfold minInt; omega
        · have : (0 : Int) ≤ (countAdds rest : Int) := Int.ofNat_nonneg _
          omega
      have hs2next : (s.Add now title message).2.nextID = a + 1 := hwrap
      have hs2notes : (s.Add now title message).2.notifications
          = s.notifications ++ [(s.Add now title message).1] := rfl
      have hid : (s.Add now title message).1.ID = a := hnext
      obtain ⟨h1, h2, h3, h4⟩ := ih (s.Add now title message).2 (a + 1) hs2next (by omega)
        hfit2
        (by
          rw [hs2notes, List.map_append, List.pairwise_append]
          refine ⟨hsorted, by simp, ?_⟩
          intro x hx y hy
          obtain ⟨n, hn, rfl⟩ := List.mem_map.mp hx
          simp only [List.map_cons, List.map_nil, List.mem_singleton] at hy
          rw [hy, hid]
          exact hlt n hn)
        (by
          intro n hn
          rw [hs2notes, List.mem_append, List.mem_singleton] at hn
          rcases hn with hn | hn
          · have := hlt n hn
            omega
          · rw [hn, hid]
            omega)
      refine ⟨?_, ?_, h3, ?_⟩
      · show (runStore (s.Add now title message).2 rest).nextID = _
        rw [h1]
        simp only [countAdds, Nat.cast_add, Nat.cast_one]
        omega
      · show ((s.Add now title message).1 :: addResults (s.Add now title message).2 rest).map _
          = _
        rw [List.map_cons, h2, hid]
        simp only [countAdds, List.range_succ_eq_map, List.map_cons, List.map_map,
          Nat.cast_zero, add_zero]
        congr 1
        apply List.map_congr_left
        intro i _
        simp only [Function.comp, Nat.cast_succ]
        omega
      · intro n hn
        have := h4 n hn
        simp only [countAdds, Nat.cast_add, Nat.cast_one]
        omega

/-- C18. In every state reached from `NewStore` by a sequence of `Add` and
`Clear` calls in which the counter has not left the range of `int`: the n-th
`Add` made returns id n, counting from 1; `Clear` leaves the counter alone, so
the ids returned are pairwise different; the stored notifications have ids that
are pairwise different and smaller than the next id; and `GetAll` is strictly
descending by id. -/
theorem Store_ids (ops : List StoreOp) (hfit : (countAdds ops : Int) + 1 ≤ maxInt) :
    (runStore NewStore ops).nextID = (countAdds ops : Int) + 1
      ∧ (addResults NewStore ops).map (fun n => n.ID)
          = (List.range (countAdds ops)).map (fun (i : Nat) => (i : Int) + 1)
      ∧ ((addResults NewStore ops).map (fun n => n.ID)).Nodup
      ∧ (∀ s : Store, s.Clear.nextID = s.nextID)
      ∧ ((runStore NewStore ops).notifications.map (fun n => n.ID)).Nodup
      ∧ (∀ n ∈ (runStore NewStore ops).notifications,
          n.ID < (runStore NewStore ops).nextID)
      ∧ ((runStore NewStore ops).GetAll.map (fun n => n.ID)).Pairwise (fun x y => x > y) := by
  obtain ⟨h1, h2, h3, h4⟩ := runStore_ids ops NewStore 1 rfl (le_refl _)
    (by omega) (by simp [NewStore]) (by simp [NewStore])
  have h2b : (addResults NewStore ops).map (fun n => n.ID)
      = (List.range (countAdds ops)).map (fun (i : Nat) => (i : Int) + 1) := by
    rw [h2]
    apply List.map_congr_left
    intro i _
    omega
  refine ⟨by rw [h1]; omega, h2b, ?_, fun _ => rfl, ?_, ?_, ?_⟩
  · rw [h2b]
    apply List.Nodup.map _ (List.nodup_range _)
    intro i j hij
    have : (i : Int) + 1 = (j : Int) + 1 := hij
    omega
  · exact h3.imp (fun h => ne_of_lt h)
  · intro n hn
    rw [h1]
    exact h4 n hn
  · rw [Store.GetAll_eq_reverse, List.map_reverse, List.pairwise_reverse]
    exact h3

theorem Store_ids_witness :
    (addResults NewStore [StoreOp.add 1 "a" "x", StoreOp.clear, StoreOp.add 2 "b" "y"]).map
        (fun n => n.ID)
      = (List.range (countAdds [StoreOp.add 1 "a" "x", StoreOp.clear, StoreOp.add 2 "b" "y"])).map
          (fun (i : Nat) => (i : Int) + 1) :=
  (Store_ids [StoreOp.add 1 "a" "x", StoreOp.clear, StoreOp.add 2 "b" "y"] (by decide)).2.1

end Pahg
